import Mathlib

/-!
Verification development for the GPU-resident depth-ordering subsystem of a
Gaussian-splatting web viewer.

The repository's sorting core is a bitonic sorting network running as a WGSL
compute shader (`bitonicSortShader`), driven by a `BitonicSorter` class that
dispatches one compute pass per `(j, k)` uniform pair.  Buffers are shallowly
embedded as total functions `Nat → α` (a storage buffer of `n` 32-bit scalars
is the restriction of such a function to `[0, n)`); in-place mutation becomes
functional update.  Floating-point keys are embedded as elements of an
arbitrary linear order: the shader only ever compares keys with `<` / `>`,
which on (NaN-free) IEEE floats is a linear order.

Each compute dispatch runs its loop bodies for all global ids in parallel; at
a fixed `(j, k)` every memory cell is read and written by at most one active
loop iteration (the pair partner `i ^^^ j` of an active index `i` hits
`ixj <= i` and exits early), so the sequential left fold used below computes
the same result as any parallel schedule.  Loop iterations with `i ≥ n`
(threads covering the rounded-up range `numThreads * itemsPerThread`) touch
only cells at positions `≥ n` because `i ^^^ j ≥ 2^T` whenever `i ≥ 2^T` and
`j < 2^T`; they are omitted from the fold since no claim concerns the region
beyond the buffer.
-/

/-- Functional update of a buffer embedded as `Nat → α`: the result of the
store `buf[i] = x`. -/
def upd {α : Type} (f : Nat → α) (i : Nat) (x : α) : Nat → α :=
  fun p => if p = i then x else f p

theorem upd_same {α : Type} (f : Nat → α) (i : Nat) (x : α) : upd f i x i = x := by
  simp [upd]

theorem upd_other {α : Type} (f : Nat → α) (i p : Nat) (x : α) (h : p ≠ i) :
    upd f i x p = f p := by
  simp [upd, h]

/-! ### Bit-level toolkit

The shader pairs index `i` with `i ^^^ j` and chooses the sort direction from
`i &&& k`, where `j` and `k` are powers of two.  The lemmas below convert
those bit operations into `+ / - / % / /` arithmetic, which the rest of the
development (and `omega`) can handle. -/

theorem two_pow_succ_mul_add_decomp (a q t : Nat) (ht : t < 2 ^ a) (e : Nat) (he : e ≤ 1)
    (i : Nat) :
    Nat.testBit (2 ^ (a + 1) * q + (e * 2 ^ a + t)) i =
      (if i < a then Nat.testBit t i
       else if i = a then decide (e = 1)
       else Nat.testBit q (i - (a + 1))) := by
  have hlt : e * 2 ^ a + t < 2 ^ (a + 1) := by
    have h2 : 2 ^ (a + 1) = 2 ^ a + 2 ^ a := by rw [pow_succ]; omega
    interval_cases e <;> omega
  rw [Nat.testBit_mul_pow_two_add q hlt i]
  by_cases hia : i < a + 1
  · simp only [hia, if_pos]
    have hsub := Nat.testBit_mul_pow_two_add e ht i
    rw [mul_comm (2 ^ a) e] at hsub
    rw [hsub]
    by_cases hlt2 : i < a
    · simp [hlt2, Nat.lt_irrefl]
    · have hi : i = a := by omega
      subst hi
      simp only [Nat.lt_irrefl, if_neg, if_pos, ite_false, ite_true]
      interval_cases e <;> simp
  · have h1 : ¬ i < a := by omega
    have h2 : i ≠ a := by omega
    simp [hia, h1, h2]

theorem xor_two_pow_low (a q t : Nat) (ht : t < 2 ^ a) :
    (2 ^ (a + 1) * q + t) ^^^ 2 ^ a = 2 ^ (a + 1) * q + (2 ^ a + t) := by
  apply Nat.eq_of_testBit_eq
  intro i
  rw [Nat.testBit_xor]
  have h0 := two_pow_succ_mul_add_decomp a q t ht 0 (by omega) i
  have h1 := two_pow_succ_mul_add_decomp a q t ht 1 (by omega) i
  simp only [zero_mul, Nat.zero_add] at h0
  simp only [one_mul] at h1
  rw [h0, h1, Nat.testBit_two_pow]
  by_cases hlt : i < a
  · have : a ≠ i := by omega
    simp [hlt, this]
  · by_cases heq : i = a
    · subst heq
      simp [Nat.lt_irrefl]
    · have : a ≠ i := fun h => heq h.symm
      simp [hlt, heq, this]

theorem xor_two_pow_high (a q t : Nat) (ht : t < 2 ^ a) :
    (2 ^ (a + 1) * q + (2 ^ a + t)) ^^^ 2 ^ a = 2 ^ (a + 1) * q + t := by
  have h := xor_two_pow_low a q t ht
  calc (2 ^ (a + 1) * q + (2 ^ a + t)) ^^^ 2 ^ a
      = ((2 ^ (a + 1) * q + t) ^^^ 2 ^ a) ^^^ 2 ^ a := by rw [h]
    _ = (2 ^ (a + 1) * q + t) ^^^ (2 ^ a ^^^ 2 ^ a) := by rw [Nat.xor_assoc]
    _ = 2 ^ (a + 1) * q + t := by rw [Nat.xor_self, Nat.xor_zero]

/-- Decomposition of any `p` relative to the bit `2^a`: quotient block,
bit value, low part. -/
theorem two_pow_bit_decomp (a p : Nat) :
    ∃ q e t, e ≤ 1 ∧ t < 2 ^ a ∧ p = 2 ^ (a + 1) * q + (e * 2 ^ a + t) ∧
      p % 2 ^ (a + 1) = e * 2 ^ a + t := by
  have hpos : 0 < 2 ^ (a + 1) := Nat.pos_pow_of_pos _ (by omega)
  have hdm := Nat.div_add_mod p (2 ^ (a + 1))
  have hmlt : p % 2 ^ (a + 1) < 2 ^ (a + 1) := Nat.mod_lt _ hpos
  have h2 : 2 ^ (a + 1) = 2 ^ a + 2 ^ a := by rw [pow_succ]; omega
  by_cases hlow : p % 2 ^ (a + 1) < 2 ^ a
  · exact ⟨p / 2 ^ (a + 1), 0, p % 2 ^ (a + 1), by omega, hlow, by omega, by omega⟩
  · refine ⟨p / 2 ^ (a + 1), 1, p % 2 ^ (a + 1) - 2 ^ a, by omega, by omega, by omega, by omega⟩

theorem xor_pow_of_low (a p : Nat) (h : p % 2 ^ (a + 1) < 2 ^ a) :
    p ^^^ 2 ^ a = p + 2 ^ a := by
  obtain ⟨q, e, t, he, ht, hp, hm⟩ := two_pow_bit_decomp a p
  have he0 : e = 0 := by
    rcases Nat.le_one_iff_eq_zero_or_eq_one.mp he with h0 | h1
    · exact h0
    · subst h1; omega
  subst he0
  simp only [zero_mul, Nat.zero_add] at hp
  rw [hp, xor_two_pow_low a q t ht]
  omega

theorem xor_pow_of_high (a p : Nat) (h : ¬ p % 2 ^ (a + 1) < 2 ^ a) :
    p ^^^ 2 ^ a = p - 2 ^ a ∧ 2 ^ a ≤ p := by
  obtain ⟨q, e, t, he, ht, hp, hm⟩ := two_pow_bit_decomp a p
  have he1 : e = 1 := by
    rcases Nat.le_one_iff_eq_zero_or_eq_one.mp he with h0 | h1
    · subst h0; omega
    · exact h1
  subst he1
  simp only [one_mul] at hp
  constructor
  · rw [hp, xor_two_pow_high a q t ht]
    omega
  · omega

/-- The guard `ixj <= i` of the shader: `i ^^^ 2^a ≤ i` holds exactly when
bit `a` of `i` is set, i.e. when `i % 2^(a+1) ≥ 2^a`. -/
theorem xor_le_iff (a p : Nat) :
    (p ^^^ 2 ^ a ≤ p) ↔ ¬ p % 2 ^ (a + 1) < 2 ^ a := by
  have hpos : 0 < 2 ^ a := Nat.pos_pow_of_pos _ (by omega)
  by_cases h : p % 2 ^ (a + 1) < 2 ^ a
  · rw [xor_pow_of_low a p h]
    have hno : ¬ (p + 2 ^ a ≤ p) := by omega
    tauto
  · obtain ⟨hx, hle⟩ := xor_pow_of_high a p h
    rw [hx]
    have hyes : p - 2 ^ a ≤ p := by omega
    tauto

/-- The direction test `(i & k) == 0` of the shader, for `k = 2^c`. -/
theorem and_pow_eq_zero_iff (c p : Nat) :
    (p &&& 2 ^ c = 0) ↔ p % 2 ^ (c + 1) < 2 ^ c := by
  obtain ⟨q, e, t, he, ht, hp, hm⟩ := two_pow_bit_decomp c p
  have hbit : p.testBit c = decide (e = 1) := by
    rw [hp, two_pow_succ_mul_add_decomp c q t ht e he c]
    simp [Nat.lt_irrefl]
  constructor
  · intro h
    have : p.testBit c = false := by
      have h' := congrArg (fun x => x.testBit c) h
      simpa [Nat.testBit_and, Nat.testBit_two_pow_self] using h'
    rw [hbit] at this
    have he0 : e = 0 := by
      by_contra hne
      have he1 : e = 1 := by omega
      simp [he1] at this
    subst he0
    omega
  · intro h
    have he0 : e = 0 := by
      rcases Nat.le_one_iff_eq_zero_or_eq_one.mp he with h0 | h1
      · exact h0
      · subst h1; omega
    subst he0
    apply Nat.eq_of_testBit_eq
    intro i
    rw [Nat.testBit_and, Nat.testBit_two_pow]
    by_cases hic : c = i
    · subst hic
      rw [hbit]
      simp
    · simp [hic]

/-- Indices at or beyond a power-of-two buffer size stay there under the
pairing `i ^^^ j` used by the network, for `j` below the size. -/
theorem xor_ge_of_ge (T j p : Nat) (hj : j < 2 ^ T) (hp : 2 ^ T ≤ p) :
    2 ^ T ≤ p ^^^ j := by
  by_contra h
  push_neg at h
  have := Nat.xor_lt_two_pow (n := T) h hj
  rw [Nat.xor_assoc, Nat.xor_self, Nat.xor_zero] at this
  omega

/-! ### Embedding of the scalar `BitonicSorter` (bitonic.ts, scalar shader)

`SortBuffers` is the pair of storage buffers bound to the sort shader:
`data` (the f32 keys being sorted in place) and `indices` (the u32 index
permutation carried along in lockstep). -/

structure SortBuffers (α : Type) where
  values : Nat → α
  indices : Nat → Nat

/-- Body of one loop iteration of the scalar `bitonicSortShader` at global
index `i`, for the uniform pair `(j, k)`:

    let ixj = i ^ j;
    if (ixj <= i) { continue; }
    let swap_pos = ((i & k) == 0 && data.values[i] > data.values[ixj]);
    let swap_neg = ((i & k) != 0 && data.values[i] < data.values[ixj]);
    if (swap_pos || swap_neg) { swap data.values[i], data.values[ixj];
                                swap indices.values[i], indices.values[ixj]; } -/
def casStep {α : Type} [LinearOrder α] (j k : Nat) (s : SortBuffers α) (i : Nat) :
    SortBuffers α :=
  if i ^^^ j ≤ i then s
  else if (i &&& k = 0 ∧ s.values i > s.values (i ^^^ j)) ∨
          (i &&& k ≠ 0 ∧ s.values i < s.values (i ^^^ j)) then
    { values := upd (upd s.values i (s.values (i ^^^ j))) (i ^^^ j) (s.values i)
      indices := upd (upd s.indices i (s.indices (i ^^^ j))) (i ^^^ j) (s.indices i) }
  else s

/-- One compute dispatch of the sort pipeline for the uniform pair `(j, k)`:
every global index `i < n` runs the shader body once.  The active pairs are
disjoint, so the sequential fold agrees with the parallel execution. -/
def bitonicDispatch {α : Type} [LinearOrder α] (n j k : Nat) (s : SortBuffers α) :
    SortBuffers α :=
  (List.range n).foldl (casStep j k) s

/-- Inner loop of `createUniforms`: the `j` values `k>>1, k>>2, ..., 1`.
The structural fuel argument (first component) makes the definition
kernel-reducible; `jList` instantiates it with enough fuel. -/
def jListF : Nat → Nat → List Nat
  | 0, _ => []
  | fuel + 1, j => if j = 0 then [] else j :: jListF fuel (j >>> 1)

def jList (j : Nat) : List Nat := jListF j j

/-- Uniform pairs `(j, k)` pushed by one outer iteration of `createUniforms`
for merge stage size `k`. -/
def mergePairs (k : Nat) : List (Nat × Nat) := (jList (k >>> 1)).map (fun j => (j, k))

/-- Outer loop of `createUniforms`:
`for (let k = 2; k <= n; k <<= 1) for (let j = k >> 1; j > 0; j >>= 1)`,
again with structural fuel. -/
def kLoopF (n : Nat) : Nat → Nat → List (Nat × Nat)
  | 0, _ => []
  | fuel + 1, k => if k ≤ n then mergePairs k ++ kLoopF n fuel (k <<< 1) else []

/-- Sequence of uniform buffers `(j, k)` created by
`BitonicSorter.createUniforms`, in dispatch order. -/
def uniformsList (n : Nat) : List (Nat × Nat) := kLoopF n n 2

/-- Core of `BitonicSorter.argsort`: starting from the freshly copied keys
and the identity index buffer, dispatch the sort shader once per uniform
pair. -/
def argsortBuffers {α : Type} [LinearOrder α] (n : Nat) (keys : Nat → α) : SortBuffers α :=
  (uniformsList n).foldl (fun s p => bitonicDispatch n p.1 p.2 s)
    { values := keys, indices := fun i => i }

/-- Permutation returned by `BitonicSorter.argsort` on a key buffer of the
configured size: the contents of `indicesBuffer` after all dispatches. -/
def argsortPerm {α : Type} [LinearOrder α] (n : Nat) (keys : Nat → α) : Nat → Nat :=
  (argsortBuffers n keys).indices

/-- Power-of-two test of the `BitonicSorter` constructor,
`Math.log2(nElements) % 1 != 0` (true exactly on powers of two, including
`2^0 = 1`; `Math.log2(0) = -Infinity` makes `0` fail the test). -/
def isPowerOfTwo (n : Nat) : Prop := ∃ t : Nat, n = 2 ^ t

instance decIsPowerOfTwo (n : Nat) : Decidable (isPowerOfTwo n) := by
  refine decidable_of_iff (∃ t : Nat, t < n + 1 ∧ n = 2 ^ t) ⟨?_, ?_⟩
  · rintro ⟨t, _, h⟩; exact ⟨t, h⟩
  · rintro ⟨t, h⟩
    exact ⟨t, by subst h; exact Nat.lt_succ_of_lt (Nat.lt_two_pow t), h⟩

/-- Device-side state of a `BitonicSorter` instance: the three storage
buffers it owns.  `initialIndexBuffer` is filled with `0, 1, 2, ...` at
construction and never written afterwards. -/
structure BitonicSorter (α : Type) where
  nElements : Nat
  valuesBuffer : Nat → α
  indicesBuffer : Nat → Nat
  initialIndexBuffer : Nat → Nat

/-- Constructor of `BitonicSorter`: throws unless `nElements` is a power of
two; otherwise creates zero-filled `valuesBuffer` / `indicesBuffer` (WebGPU
buffers are zero-initialized; `zero` stands for `0.0f`) and the identity
`initialIndexBuffer`. -/
def mkBitonicSorter (α : Type) (zero : α) (nElements : Nat) :
    Except String (BitonicSorter α) :=
  if isPowerOfTwo nElements then
    .ok { nElements := nElements
          valuesBuffer := fun _ => zero
          indicesBuffer := fun _ => 0
          initialIndexBuffer := fun i => i }
  else
    .error ("nElements must be a power of 2")

/-- The `argsort` method.  `valuesSize` is the byte size of the caller's key
buffer; on mismatch the method throws before encoding any GPU command, so
the sorter state is returned unchanged.  Otherwise the keys are copied into
`valuesBuffer` (after a clear that the full-size copy overwrites),
`initialIndexBuffer` is copied into `indicesBuffer`, and the shader is
dispatched once per uniform pair; the caller's buffer is only ever used as a
copy source.  Returns the updated sorter and (a handle to) its
`indicesBuffer`. -/
def BitonicSorter.argsort {α : Type} [LinearOrder α] (s : BitonicSorter α)
    (valuesSize : Nat) (values : Nat → α) :
    BitonicSorter α × Except String (Nat → Nat) :=
  if valuesSize ≠ s.nElements * 4 then
    (s, .error ("Input buffer size does not match the size of the sorter"))
  else
    let out := (uniformsList s.nElements).foldl (fun b p => bitonicDispatch s.nElements p.1 p.2 b)
      { values := values, indices := s.initialIndexBuffer }
    ({ s with valuesBuffer := out.values, indicesBuffer := out.indices }, .ok out.indices)

/-! ### Pointwise comparator form of one dispatch

`cmpSwap J K v` is the pure min/max description of the key movement caused by
one dispatch at uniform pair `(J, K)` (both powers of two, `J < K`): position
`p` in the lower half of its `2J`-aligned pair block receives the
minimum/maximum of the pair `(p, p + J)` according to the direction bit `K`,
and the upper half receives the other one.  The swap condition of the shader
is strict, so on the value buffers it is exactly min/max placement. -/

def cmpSwap {α : Type} [LinearOrder α] (J K : Nat) (v : Nat → α) : Nat → α := fun p =>
  if p % (2 * J) < J then
    (if p % (2 * K) < K then min (v p) (v (p + J)) else max (v p) (v (p + J)))
  else
    (if p % (2 * K) < K then max (v (p - J)) (v p) else min (v (p - J)) (v p))

theorem two_mul_pow (a : Nat) : 2 * 2 ^ a = 2 ^ (a + 1) := by
  rw [pow_succ]; ring

theorem mod_succ_add_low (a p : Nat) (h : p % 2 ^ (a + 1) < 2 ^ a) :
    (p + 2 ^ a) % 2 ^ (a + 1) = p % 2 ^ (a + 1) + 2 ^ a := by
  obtain ⟨q, e, t, he, ht, hp, hm⟩ := two_pow_bit_decomp a p
  have he0 : e = 0 := by
    rcases Nat.le_one_iff_eq_zero_or_eq_one.mp he with h0 | h1
    · exact h0
    · subst h1; omega
  subst he0
  simp only [zero_mul, Nat.zero_add] at hp hm
  have h2 : 2 ^ (a + 1) = 2 ^ a + 2 ^ a := by rw [pow_succ]; omega
  have hsum : p + 2 ^ a = 2 ^ (a + 1) * q + (2 ^ a + t) := by omega
  rw [hsum, Nat.mul_add_mod, Nat.mod_eq_of_lt (by omega)]
  omega

theorem pow_mul_split (a c : Nat) (hac : a ≤ c) : 2 ^ a * 2 ^ (c - a) = 2 ^ c := by
  rw [← pow_add]
  congr 1
  omega

theorem add_pow_lt_pow (a T p : Nat) (haT : a < T) (hbit : p % 2 ^ (a + 1) < 2 ^ a)
    (hp : p < 2 ^ T) : p + 2 ^ a < 2 ^ T := by
  obtain ⟨q, e, t, he, ht, hp', hm⟩ := two_pow_bit_decomp a p
  have he0 : e = 0 := by
    rcases Nat.le_one_iff_eq_zero_or_eq_one.mp he with h0 | h1
    · exact h0
    · subst h1; omega
  subst he0
  simp only [zero_mul, Nat.zero_add] at hp'
  have hM : 2 ^ (a + 1) * 2 ^ (T - (a + 1)) = 2 ^ T := pow_mul_split (a + 1) T (by omega)
  set M := 2 ^ (T - (a + 1)) with hMdef
  have hqM : q < M := by
    by_contra hge
    push_neg at hge
    have : 2 ^ (a + 1) * M ≤ 2 ^ (a + 1) * q := Nat.mul_le_mul_left _ hge
    omega
  have h2 : 2 ^ (a + 1) = 2 ^ a + 2 ^ a := by rw [pow_succ]; omega
  have : 2 ^ (a + 1) * (q + 1) ≤ 2 ^ (a + 1) * M := Nat.mul_le_mul_left _ (by omega)
  have hmul : 2 ^ (a + 1) * (q + 1) = 2 ^ (a + 1) * q + 2 ^ (a + 1) := by ring
  omega

theorem dir_bit_add (a c p : Nat) (hac : a < c) (hbit : p % 2 ^ (a + 1) < 2 ^ a) :
    ((p + 2 ^ a) % 2 ^ (c + 1) < 2 ^ c ↔ p % 2 ^ (c + 1) < 2 ^ c) := by
  obtain ⟨Q, E, R, hE, hR, hp, hm⟩ := two_pow_bit_decomp c p
  have hsplit : 2 ^ (a + 1) * 2 ^ (c - (a + 1)) = 2 ^ c := pow_mul_split (a + 1) c (by omega)
  set M := 2 ^ (c - (a + 1)) with hMdef
  have hRm : R % 2 ^ (a + 1) < 2 ^ a := by
    have hrw : p = 2 ^ (a + 1) * (2 * M * Q + E * M) + R := by
      rw [hp]
      have hc1 : 2 ^ (c + 1) = 2 ^ (a + 1) * (2 * M) := by
        rw [← two_mul_pow c, ← hsplit]; ring
      have hc2 : 2 ^ c = 2 ^ (a + 1) * M := hsplit.symm
      rw [hc1, hc2]; ring
    rw [hrw, Nat.mul_add_mod] at hbit
    exact hbit
  have hRa : R + 2 ^ a < 2 ^ c := by
    obtain ⟨u, e', t, he', ht, hRdec, hRmod⟩ := two_pow_bit_decomp a R
    have he0 : e' = 0 := by
      rcases Nat.le_one_iff_eq_zero_or_eq_one.mp he' with h0 | h1
      · exact h0
      · subst h1; omega
    subst he0
    simp only [zero_mul, Nat.zero_add] at hRdec
    have hXY : 2 ^ (a + 1) * u < 2 ^ (a + 1) * M := by
      have h1 : 2 ^ (a + 1) * u ≤ R := by omega
      omega
    have huM : u < M := Nat.lt_of_mul_lt_mul_left hXY
    have hstep : 2 ^ (a + 1) * (u + 1) ≤ 2 ^ (a + 1) * M := Nat.mul_le_mul_left _ (by omega)
    have hexp : 2 ^ (a + 1) * (u + 1) = 2 ^ (a + 1) * u + 2 ^ (a + 1) := by ring
    have h2 : 2 ^ (a + 1) = 2 ^ a + 2 ^ a := by rw [pow_succ]; omega
    omega
  have hmod1 : (p + 2 ^ a) % 2 ^ (c + 1) = E * 2 ^ c + R + 2 ^ a := by
    have hrw : p + 2 ^ a = 2 ^ (c + 1) * Q + (E * 2 ^ c + R + 2 ^ a) := by omega
    rw [hrw, Nat.mul_add_mod, Nat.mod_eq_of_lt]
    have h2 : 2 ^ (c + 1) = 2 ^ c + 2 ^ c := by rw [pow_succ]; omega
    interval_cases E <;> omega
  rw [hmod1, hm]
  have hcpos : 0 < 2 ^ c := Nat.pos_pow_of_pos _ (by omega)
  interval_cases E <;> omega


theorem casStep_inactive {α : Type} [LinearOrder α] (j k i : Nat) (s : SortBuffers α)
    (h : i ^^^ j ≤ i) : casStep j k s i = s := by
  rw [casStep, if_pos h]

theorem casStep_swap {α : Type} [LinearOrder α] (j k i : Nat) (s : SortBuffers α)
    (hg : ¬ i ^^^ j ≤ i)
    (hsw : (i &&& k = 0 ∧ s.values i > s.values (i ^^^ j)) ∨
           (i &&& k ≠ 0 ∧ s.values i < s.values (i ^^^ j))) :
    casStep j k s i =
      { values := upd (upd s.values i (s.values (i ^^^ j))) (i ^^^ j) (s.values i)
        indices := upd (upd s.indices i (s.indices (i ^^^ j))) (i ^^^ j) (s.indices i) } := by
  rw [casStep, if_neg hg, if_pos hsw]

theorem casStep_noswap {α : Type} [LinearOrder α] (j k i : Nat) (s : SortBuffers α)
    (hg : ¬ i ^^^ j ≤ i)
    (hsw : ¬ ((i &&& k = 0 ∧ s.values i > s.values (i ^^^ j)) ∨
              (i &&& k ≠ 0 ∧ s.values i < s.values (i ^^^ j)))) :
    casStep j k s i = s := by
  rw [casStep, if_neg hg, if_neg hsw]

theorem cmpSwap_low_asc {α : Type} [LinearOrder α] (J K : Nat) (v : Nat → α) (p : Nat)
    (h1 : p % (2 * J) < J) (h2 : p % (2 * K) < K) :
    cmpSwap J K v p = min (v p) (v (p + J)) := by
  simp [cmpSwap, h1, h2]

theorem cmpSwap_low_desc {α : Type} [LinearOrder α] (J K : Nat) (v : Nat → α) (p : Nat)
    (h1 : p % (2 * J) < J) (h2 : ¬ p % (2 * K) < K) :
    cmpSwap J K v p = max (v p) (v (p + J)) := by
  simp [cmpSwap, h1, h2]

theorem cmpSwap_high_asc {α : Type} [LinearOrder α] (J K : Nat) (v : Nat → α) (p : Nat)
    (h1 : ¬ p % (2 * J) < J) (h2 : p % (2 * K) < K) :
    cmpSwap J K v p = max (v (p - J)) (v p) := by
  simp [cmpSwap, h1, h2]

theorem cmpSwap_high_desc {α : Type} [LinearOrder α] (J K : Nat) (v : Nat → α) (p : Nat)
    (h1 : ¬ p % (2 * J) < J) (h2 : ¬ p % (2 * K) < K) :
    cmpSwap J K v p = min (v (p - J)) (v p) := by
  simp [cmpSwap, h1, h2]

/-- The lower end of the pair that `q` belongs to always has bit `a` clear. -/
theorem pair_low_bit (a q : Nat) :
    (if q % (2 * 2 ^ a) < 2 ^ a then q else q - 2 ^ a) % (2 * 2 ^ a) < 2 ^ a := by
  by_cases hq : q % (2 * 2 ^ a) < 2 ^ a
  · rw [if_pos hq]; exact hq
  · rw [if_neg hq]
    rw [two_mul_pow] at hq ⊢
    obtain ⟨u, e, t, he, ht, hdec, hm⟩ := two_pow_bit_decomp a q
    have he1 : e = 1 := by
      rcases Nat.le_one_iff_eq_zero_or_eq_one.mp he with h0 | h1
      · subst h0; omega
      · exact h1
    subst he1
    have hsub : q - 2 ^ a = 2 ^ (a + 1) * u + t := by omega
    have htlt : t < 2 ^ (a + 1) := by
      have h2 : 2 ^ (a + 1) = 2 ^ a + 2 ^ a := by rw [pow_succ]; omega
      omega
    rw [hsub, Nat.mul_add_mod, Nat.mod_eq_of_lt htlt]
    exact ht

/-- One dispatch of the sort shader computes exactly the pointwise comparator
`cmpSwap` on the buffer range `[0, 2^T)` and leaves everything beyond it
unchanged. -/
theorem bitonicDispatch_values {α : Type} [LinearOrder α] (a c T : Nat) (hac : a < c)
    (hcT : c ≤ T) (s : SortBuffers α) (p : Nat) :
    (bitonicDispatch (2 ^ T) (2 ^ a) (2 ^ c) s).values p =
      (if p < 2 ^ T then cmpSwap (2 ^ a) (2 ^ c) s.values p else s.values p) := by
  have hJ : (0 : Nat) < 2 ^ a := Nat.pos_pow_of_pos _ (by omega)
  have h2J : 2 * 2 ^ a = 2 ^ (a + 1) := two_mul_pow a
  have h2K : 2 * 2 ^ c = 2 ^ (c + 1) := two_mul_pow c
  have key : ∀ m q, ((List.range m).foldl (casStep (2 ^ a) (2 ^ c)) s).values q =
      (if (if q % (2 * 2 ^ a) < 2 ^ a then q else q - 2 ^ a) < m
       then cmpSwap (2 ^ a) (2 ^ c) s.values q else s.values q) := by
    intro m
    induction m with
    | zero => intro q; simp
    | succ m ih =>
      intro q
      rw [List.range_succ, List.foldl_append, List.foldl_cons, List.foldl_nil]
      set F := (List.range m).foldl (casStep (2 ^ a) (2 ^ c)) s with hF
      by_cases hbit : m % (2 * 2 ^ a) < 2 ^ a
      · -- active step: the pair (m, m + 2^a)
        have hbit' : m % 2 ^ (a + 1) < 2 ^ a := by rw [← h2J]; exact hbit
        have hxor : m ^^^ 2 ^ a = m + 2 ^ a := xor_pow_of_low a m hbit'
        have hguard : ¬ (m ^^^ 2 ^ a ≤ m) := by rw [hxor]; omega
        have hvm : F.values m = s.values m := by
          rw [ih m]
          simp [hbit]
        have hmjbit : ¬ ((m + 2 ^ a) % (2 * 2 ^ a) < 2 ^ a) := by
          rw [h2J, mod_succ_add_low a m hbit']
          omega
        have hsub : m + 2 ^ a - 2 ^ a = m := by omega
        have hvmj : F.values (m + 2 ^ a) = s.values (m + 2 ^ a) := by
          rw [ih (m + 2 ^ a)]
          simp [hmjbit, hsub]
        have hdirm : (m &&& 2 ^ c = 0) ↔ m % (2 * 2 ^ c) < 2 ^ c := by
          rw [h2K]; exact and_pow_eq_zero_iff c m
        have hdireq : ((m + 2 ^ a) % (2 * 2 ^ c) < 2 ^ c) ↔ (m % (2 * 2 ^ c) < 2 ^ c) := by
          rw [h2K]; exact dir_bit_add a c m hac hbit'
        have hne : m ≠ m + 2 ^ a := by omega
        have huntouched : ∀ r, r ≠ m → r ≠ m + 2 ^ a →
            (((if r % (2 * 2 ^ a) < 2 ^ a then r else r - 2 ^ a) < m + 1) ↔
             ((if r % (2 * 2 ^ a) < 2 ^ a then r else r - 2 ^ a) < m)) := by
          intro r hrm hrmj
          constructor
          · intro h
            rcases Nat.lt_succ_iff_lt_or_eq.mp h with h' | h'
            · exact h'
            · exfalso
              by_cases hr : r % (2 * 2 ^ a) < 2 ^ a
              · rw [if_pos hr] at h'
                exact hrm h'
              · rw [if_neg hr] at h'
                have hge : 2 ^ a ≤ r := by
                  have := Nat.mod_le r (2 * 2 ^ a)
                  omega
                exact hrmj (by omega)
          · intro h; omega
        by_cases hsw : (m &&& 2 ^ c = 0 ∧ s.values m > s.values (m + 2 ^ a)) ∨
            (m &&& 2 ^ c ≠ 0 ∧ s.values m < s.values (m + 2 ^ a))
        · have hsw' : (m &&& 2 ^ c = 0 ∧ F.values m > F.values (m ^^^ 2 ^ a)) ∨
              (m &&& 2 ^ c ≠ 0 ∧ F.values m < F.values (m ^^^ 2 ^ a)) := by
            rw [hxor, hvm, hvmj]
            exact hsw
          rw [casStep_swap (2 ^ a) (2 ^ c) m F hguard hsw']
          dsimp only
          rw [hxor, hvm, hvmj]
          by_cases hqm : q = m
          · subst hqm
            rw [if_pos (by simp [hbit])]
            rw [upd_other _ _ _ _ hne, upd_same]
            rcases hsw with ⟨hdir, hgt⟩ | ⟨hdir, hlt⟩
            · rw [cmpSwap_low_asc _ _ _ _ hbit (hdirm.mp hdir)]
              exact (min_eq_right (le_of_lt hgt)).symm
            · have hdir2 : ¬ (q % (2 * 2 ^ c) < 2 ^ c) := fun h => hdir (hdirm.mpr h)
              rw [cmpSwap_low_desc _ _ _ _ hbit hdir2]
              exact (max_eq_right (le_of_lt hlt)).symm
          · by_cases hqmj : q = m + 2 ^ a
            · subst hqmj
              rw [if_pos (by simp [hmjbit, hsub])]
              rw [upd_same]
              rcases hsw with ⟨hdir, hgt⟩ | ⟨hdir, hlt⟩
              · rw [cmpSwap_high_asc _ _ _ _ hmjbit (hdireq.mpr (hdirm.mp hdir)), hsub]
                exact (max_eq_left (le_of_lt hgt)).symm
              · have hdir2 : ¬ ((m + 2 ^ a) % (2 * 2 ^ c) < 2 ^ c) := by
                  intro h
                  exact hdir (hdirm.mpr (hdireq.mp h))
                rw [cmpSwap_high_desc _ _ _ _ hmjbit hdir2, hsub]
                exact (min_eq_left (le_of_lt hlt)).symm
            · rw [upd_other _ _ _ _ hqmj, upd_other _ _ _ _ hqm, ih q]
              by_cases hc : (if q % (2 * 2 ^ a) < 2 ^ a then q else q - 2 ^ a) < m
              · rw [if_pos hc, if_pos ((huntouched q hqm hqmj).mpr hc)]
              · rw [if_neg hc, if_neg (fun h => hc ((huntouched q hqm hqmj).mp h))]
        · have hsw' : ¬ ((m &&& 2 ^ c = 0 ∧ F.values m > F.values (m ^^^ 2 ^ a)) ∨
              (m &&& 2 ^ c ≠ 0 ∧ F.values m < F.values (m ^^^ 2 ^ a))) := by
            rw [hxor, hvm, hvmj]
            exact hsw
          rw [casStep_noswap (2 ^ a) (2 ^ c) m F hguard hsw']
          push_neg at hsw
          by_cases hqm : q = m
          · subst hqm
            rw [if_pos (by simp [hbit]), hvm]
            by_cases hdir : q &&& 2 ^ c = 0
            · rw [cmpSwap_low_asc _ _ _ _ hbit (hdirm.mp hdir)]
              exact (min_eq_left (hsw.1 hdir)).symm
            · have hdir2 : ¬ (q % (2 * 2 ^ c) < 2 ^ c) := fun h => hdir (hdirm.mpr h)
              rw [cmpSwap_low_desc _ _ _ _ hbit hdir2]
              exact (max_eq_left (hsw.2 hdir)).symm
          · by_cases hqmj : q = m + 2 ^ a
            · subst hqmj
              rw [if_pos (by simp [hmjbit, hsub]), hvmj]
              by_cases hdir : m &&& 2 ^ c = 0
              · rw [cmpSwap_high_asc _ _ _ _ hmjbit (hdireq.mpr (hdirm.mp hdir)), hsub]
                exact (max_eq_right (hsw.1 hdir)).symm
              · have hdir2 : ¬ ((m + 2 ^ a) % (2 * 2 ^ c) < 2 ^ c) := by
                  intro h
                  exact hdir (hdirm.mpr (hdireq.mp h))
                rw [cmpSwap_high_desc _ _ _ _ hmjbit hdir2, hsub]
                exact (min_eq_right (hsw.2 hdir)).symm
            · rw [ih q]
              by_cases hc : (if q % (2 * 2 ^ a) < 2 ^ a then q else q - 2 ^ a) < m
              · rw [if_pos hc, if_pos ((huntouched q hqm hqmj).mpr hc)]
              · rw [if_neg hc, if_neg (fun h => hc ((huntouched q hqm hqmj).mp h))]
      · -- inactive step: the shader body hits `continue`
        have hguard : m ^^^ 2 ^ a ≤ m := by
          rw [xor_le_iff, ← h2J]
          exact hbit
        rw [casStep_inactive _ _ _ _ hguard, ih q]
        have hlowbit := pair_low_bit a q
        have hcond : ((if q % (2 * 2 ^ a) < 2 ^ a then q else q - 2 ^ a) < m + 1) ↔
            ((if q % (2 * 2 ^ a) < 2 ^ a then q else q - 2 ^ a) < m) := by
          constructor
          · intro h
            rcases Nat.lt_succ_iff_lt_or_eq.mp h with h' | h'
            · exact h'
            · exfalso
              rw [h'] at hlowbit
              exact hbit hlowbit
          · intro h; omega
        by_cases hc : (if q % (2 * 2 ^ a) < 2 ^ a then q else q - 2 ^ a) < m
        · rw [if_pos hc, if_pos (hcond.mpr hc)]
        · rw [if_neg hc, if_neg (fun h => hc (hcond.mp h))]
  rw [bitonicDispatch, key (2 ^ T) p]
  by_cases hp : p < 2 ^ T
  · have hlt : (if p % (2 * 2 ^ a) < 2 ^ a then p else p - 2 ^ a) < 2 ^ T := by
      by_cases hq : p % (2 * 2 ^ a) < 2 ^ a
      · simpa [hq] using hp
      · rw [if_neg hq]; omega
    rw [if_pos hlt, if_pos hp]
  · have hlow : ¬ ((if p % (2 * 2 ^ a) < 2 ^ a then p else p - 2 ^ a) < 2 ^ T) := by
      by_cases hq : p % (2 * 2 ^ a) < 2 ^ a
      · simpa [hq] using hp
      · rw [if_neg hq]
        rw [h2J] at hq
        obtain ⟨hx, hge⟩ := xor_pow_of_high a p hq
        have hja : 2 ^ a < 2 ^ T := Nat.pow_lt_pow_right (by omega) (by omega)
        have := xor_ge_of_ge T (2 ^ a) p hja (by omega)
        omega
    rw [if_neg hlow, if_neg hp]

/-- The lockstep swap preserves the tracking invariant: every value cell
holds the key originally stored at the index recorded in the matching index
cell. -/
theorem casStep_tracking {α : Type} [LinearOrder α] (j k i : Nat) (keys : Nat → α)
    (s : SortBuffers α) (h : ∀ p, s.values p = keys (s.indices p)) :
    ∀ p, (casStep j k s i).values p = keys ((casStep j k s i).indices p) := by
  intro p
  by_cases hg : i ^^^ j ≤ i
  · rw [casStep_inactive _ _ _ _ hg]
    exact h p
  · by_cases hsw : (i &&& k = 0 ∧ s.values i > s.values (i ^^^ j)) ∨
        (i &&& k ≠ 0 ∧ s.values i < s.values (i ^^^ j))
    · rw [casStep_swap _ _ _ _ hg hsw]
      dsimp only
      by_cases hp1 : p = i ^^^ j
      · subst hp1
        rw [upd_same, upd_same]
        exact h i
      · rw [upd_other _ _ _ _ hp1, upd_other _ _ _ _ hp1]
        by_cases hp2 : p = i
        · subst hp2
          rw [upd_same, upd_same]
          exact h (p ^^^ j)
        · rw [upd_other _ _ _ _ hp2, upd_other _ _ _ _ hp2]
          exact h p
    · rw [casStep_noswap _ _ _ _ hg hsw]
      exact h p

theorem swap_bijOn (i j n : Nat) (hi : i < n) (hj : j < n) :
    Set.BijOn (fun p => Equiv.swap i j p) (Set.Iio n) (Set.Iio n) := by
  have hmaps : Set.MapsTo (fun p => Equiv.swap i j p) (Set.Iio n) (Set.Iio n) := by
    intro p hp
    simp only [Set.mem_Iio] at *
    rw [Equiv.swap_apply_def]
    split
    · exact hj
    · split
      · exact hi
      · exact hp
  refine ⟨hmaps, (Equiv.injective _).injOn, ?_⟩
  intro q hq
  exact ⟨Equiv.swap i j q, hmaps hq, Equiv.swap_apply_self i j q⟩

/-- A lockstep swap rewrites the index buffer as precomposition with a
transposition. -/
theorem upd_upd_eq_comp_swap {α : Type} (f : Nat → α) (i j : Nat) (hij : i ≠ j) :
    upd (upd f i (f j)) j (f i) = fun p => f (Equiv.swap i j p) := by
  funext p
  by_cases hp1 : p = j
  · subst hp1
    rw [upd_same, Equiv.swap_apply_right]
  · rw [upd_other _ _ _ _ hp1]
    by_cases hp2 : p = i
    · subst hp2
      rw [upd_same, Equiv.swap_apply_left]
    · rw [upd_other _ _ _ _ hp2, Equiv.swap_apply_of_ne_of_ne hp2 hp1]

/-- Each shader loop iteration preserves bijectivity of the index buffer on
the sorted range: it either does nothing or swaps two in-range cells. -/
theorem casStep_bijOn {α : Type} [LinearOrder α] (a c T i : Nat) (hac : a < c) (hcT : c ≤ T)
    (hi : i < 2 ^ T) (s : SortBuffers α)
    (h : Set.BijOn s.indices (Set.Iio (2 ^ T)) (Set.Iio (2 ^ T))) :
    Set.BijOn (casStep (2 ^ a) (2 ^ c) s i).indices (Set.Iio (2 ^ T)) (Set.Iio (2 ^ T)) := by
  by_cases hg : i ^^^ 2 ^ a ≤ i
  · rw [casStep_inactive _ _ _ _ hg]
    exact h
  · have hbit : i % 2 ^ (a + 1) < 2 ^ a := by
      by_contra hb
      exact hg ((xor_le_iff a i).mpr hb)
    have hxor : i ^^^ 2 ^ a = i + 2 ^ a := xor_pow_of_low a i hbit
    have hixj : i ^^^ 2 ^ a < 2 ^ T := by
      rw [hxor]
      exact add_pow_lt_pow a T i (by omega) hbit hi
    have hne : i ≠ i ^^^ 2 ^ a := by rw [hxor]; omega
    by_cases hsw : (i &&& 2 ^ c = 0 ∧ s.values i > s.values (i ^^^ 2 ^ a)) ∨
        (i &&& 2 ^ c ≠ 0 ∧ s.values i < s.values (i ^^^ 2 ^ a))
    · rw [casStep_swap _ _ _ _ hg hsw]
      dsimp only
      rw [upd_upd_eq_comp_swap _ _ _ hne]
      exact Set.BijOn.comp h (swap_bijOn i (i ^^^ 2 ^ a) (2 ^ T) hi hixj)
    · rw [casStep_noswap _ _ _ _ hg hsw]
      exact h

theorem foldl_range_tracking {α : Type} [LinearOrder α] (j k n : Nat) (keys : Nat → α)
    (s : SortBuffers α) (h : ∀ p, s.values p = keys (s.indices p)) :
    ∀ p, (bitonicDispatch n j k s).values p = keys ((bitonicDispatch n j k s).indices p) := by
  rw [bitonicDispatch]
  induction (List.range n) generalizing s with
  | nil => exact h
  | cons x xs ih =>
    rw [List.foldl_cons]
    exact ih (casStep j k s x) (casStep_tracking j k x keys s h)

theorem bitonicDispatch_bijOn {α : Type} [LinearOrder α] (a c T : Nat) (hac : a < c)
    (hcT : c ≤ T) (s : SortBuffers α)
    (h : Set.BijOn s.indices (Set.Iio (2 ^ T)) (Set.Iio (2 ^ T))) :
    Set.BijOn (bitonicDispatch (2 ^ T) (2 ^ a) (2 ^ c) s).indices
      (Set.Iio (2 ^ T)) (Set.Iio (2 ^ T)) := by
  rw [bitonicDispatch]
  have main : ∀ (l : List Nat), (∀ i ∈ l, i < 2 ^ T) → ∀ s : SortBuffers α,
      Set.BijOn s.indices (Set.Iio (2 ^ T)) (Set.Iio (2 ^ T)) →
      Set.BijOn (List.foldl (casStep (2 ^ a) (2 ^ c)) s l).indices
        (Set.Iio (2 ^ T)) (Set.Iio (2 ^ T)) := by
    intro l
    induction l with
    | nil => intro _ s hs; exact hs
    | cons x xs ih =>
      intro hl s hs
      rw [List.foldl_cons]
      exact ih (fun i hi => hl i (by simp [hi])) (casStep (2 ^ a) (2 ^ c) s x)
        (casStep_bijOn a c T x hac hcT (hl x (by simp)) s hs)
  exact main (List.range (2 ^ T)) (fun i hi => List.mem_range.mp hi) s h

/-! ### Structure of the uniform-pair sequence created by `createUniforms` -/

theorem jListF_congr : ∀ (j f1 f2 : Nat), j ≤ f1 → j ≤ f2 → jListF f1 j = jListF f2 j := by
  intro j
  induction j using Nat.strong_induction_on with
  | _ j ih =>
    intro f1 f2 h1 h2
    match j, f1, f2 with
    | 0, 0, 0 => rfl
    | 0, 0, f2 + 1 => simp [jListF]
    | 0, f1 + 1, 0 => simp [jListF]
    | 0, f1 + 1, f2 + 1 => simp [jListF]
    | j + 1, f1 + 1, f2 + 1 =>
      simp only [jListF, Nat.succ_ne_zero, if_false, ite_false]
      have hh : (j + 1) >>> 1 = (j + 1) / 2 := Nat.shiftRight_one _
      have hlt : (j + 1) >>> 1 < j + 1 := by omega
      have hf1 : (j + 1) >>> 1 ≤ f1 := by omega
      have hf2 : (j + 1) >>> 1 ≤ f2 := by omega
      rw [ih _ hlt f1 f2 hf1 hf2]

theorem jList_unfold (j : Nat) (hj : j ≠ 0) : jList j = j :: jList (j >>> 1) := by
  obtain ⟨g, rfl⟩ : ∃ g, j = g + 1 := ⟨j - 1, by omega⟩
  rw [jList]
  simp only [jListF, Nat.succ_ne_zero, if_false, ite_false]
  congr 1
  have hh : (g + 1) >>> 1 = (g + 1) / 2 := Nat.shiftRight_one _
  exact jListF_congr ((g + 1) >>> 1) g ((g + 1) >>> 1) (by omega) le_rfl

theorem jList_one : jList 1 = [1] := rfl

theorem jList_pow_succ (x : Nat) : jList (2 ^ (x + 1)) = 2 ^ (x + 1) :: jList (2 ^ x) := by
  rw [jList_unfold _ (by positivity)]
  congr 1
  rw [Nat.shiftRight_one, pow_succ, Nat.mul_div_cancel _ (by omega)]

theorem jList_pow_mem : ∀ (x : Nat) (j : Nat), j ∈ jList (2 ^ x) → ∃ b, b ≤ x ∧ j = 2 ^ b := by
  intro x
  induction x with
  | zero =>
    intro j hj
    rw [pow_zero, jList_one] at hj
    simp at hj
    exact ⟨0, le_rfl, by simp [hj]⟩
  | succ x ih =>
    intro j hj
    rw [jList_pow_succ] at hj
    rcases List.mem_cons.mp hj with h | h
    · exact ⟨x + 1, le_rfl, h⟩
    · obtain ⟨b, hb, hjb⟩ := ih j h
      exact ⟨b, by omega, hjb⟩

theorem kLoopF_pow (T : Nat) : ∀ (fuel c : Nat), T ≤ c + fuel →
    kLoopF (2 ^ T) fuel (2 ^ (c + 1)) =
      ((List.range (T - c)).map (fun d => c + d)).flatMap
        (fun x => mergePairs (2 ^ (x + 1))) := by
  intro fuel
  induction fuel with
  | zero =>
    intro c hc
    have h0 : T - c = 0 := by omega
    simp [kLoopF, h0]
  | succ f ihf =>
    intro c hc
    rw [kLoopF]
    by_cases hck : c + 1 ≤ T
    · have hle : 2 ^ (c + 1) ≤ 2 ^ T := Nat.pow_le_pow_right (by omega) hck
      rw [if_pos hle]
      have hshift : (2 ^ (c + 1)) <<< 1 = 2 ^ (c + 1 + 1) := by
        rw [Nat.shiftLeft_eq, pow_one]
        ring
      rw [hshift, ihf (c + 1) (by omega)]
      have hTc : T - c = (T - (c + 1)) + 1 := by omega
      rw [hTc, List.range_succ_eq_map]
      rw [List.map_cons, List.flatMap_cons, List.map_map]
      have hfun : ((fun d => c + d) ∘ Nat.succ) = fun d => c + 1 + d := by
        funext d
        simp only [Function.comp_apply]
        omega
      rw [hfun]
    · have hgt : ¬ 2 ^ (c + 1) ≤ 2 ^ T := by
        intro hle'
        exact hck ((Nat.pow_le_pow_iff_right (by omega)).mp hle')
      rw [if_neg hgt]
      have h0 : T - c = 0 := by omega
      simp [h0]

theorem uniformsList_pow (T : Nat) :
    uniformsList (2 ^ T) = (List.range T).flatMap (fun x => mergePairs (2 ^ (x + 1))) := by
  have h := kLoopF_pow T (2 ^ T) 0 (by have := Nat.lt_two_pow T; omega)
  simp only [Nat.zero_add, pow_one, Nat.sub_zero, List.map_id'] at h
  rw [uniformsList]
  exact h

theorem uniformsList_mem (T j k : Nat) (h : (j, k) ∈ uniformsList (2 ^ T)) :
    ∃ b x, b ≤ x ∧ x < T ∧ j = 2 ^ b ∧ k = 2 ^ (x + 1) := by
  rw [uniformsList_pow] at h
  rw [List.mem_flatMap] at h
  obtain ⟨x, hx, hmem⟩ := h
  rw [List.mem_range] at hx
  rw [mergePairs] at hmem
  rw [List.mem_map] at hmem
  obtain ⟨j', hj', hpair⟩ := hmem
  have hk : k = 2 ^ (x + 1) := by
    have := congrArg Prod.snd hpair
    simpa using this.symm
  have hj : j = j' := by
    have := congrArg Prod.fst hpair
    simpa using this.symm
  subst hj
  have hshift : (2 ^ (x + 1)) >>> 1 = 2 ^ x := by
    rw [Nat.shiftRight_one, pow_succ, Nat.mul_div_cancel _ (by omega)]
  rw [hshift] at hj'
  obtain ⟨b, hb, hjb⟩ := jList_pow_mem x j hj'
  exact ⟨b, x, hb, hx, hjb, hk⟩

theorem uniformsList_pow_succ (T : Nat) :
    uniformsList (2 ^ (T + 1)) = uniformsList (2 ^ T) ++ mergePairs (2 ^ (T + 1)) := by
  rw [uniformsList_pow, uniformsList_pow, List.range_succ, List.flatMap_append]
  simp

/-! ### The value network and the 0-1 principle -/

/-- Pure comparator network on the key buffer: the composition of the
pointwise comparators `cmpSwap` over the whole uniform sequence. -/
def valNet {α : Type} [LinearOrder α] (n : Nat) (v : Nat → α) : Nat → α :=
  (uniformsList n).foldl (fun w pr => cmpSwap pr.1 pr.2 w) v

theorem cmpSwap_congr {α : Type} [LinearOrder α] (a c T : Nat) (hac : a < c) (hcT : c ≤ T)
    (v w : Nat → α) (h : ∀ p, p < 2 ^ T → v p = w p) :
    ∀ p, p < 2 ^ T → cmpSwap (2 ^ a) (2 ^ c) v p = cmpSwap (2 ^ a) (2 ^ c) w p := by
  intro p hp
  have h2J : 2 * 2 ^ a = 2 ^ (a + 1) := two_mul_pow a
  by_cases h1 : p % (2 * 2 ^ a) < 2 ^ a
  · have hpj : p + 2 ^ a < 2 ^ T := by
      apply add_pow_lt_pow a T p (by omega) _ hp
      rw [← h2J]
      exact h1
    by_cases h2 : p % (2 * 2 ^ c) < 2 ^ c
    · rw [cmpSwap_low_asc _ _ _ _ h1 h2, cmpSwap_low_asc _ _ _ _ h1 h2,
        h p hp, h (p + 2 ^ a) hpj]
    · rw [cmpSwap_low_desc _ _ _ _ h1 h2, cmpSwap_low_desc _ _ _ _ h1 h2,
        h p hp, h (p + 2 ^ a) hpj]
  · have hpj : p - 2 ^ a < 2 ^ T := by omega
    by_cases h2 : p % (2 * 2 ^ c) < 2 ^ c
    · rw [cmpSwap_high_asc _ _ _ _ h1 h2, cmpSwap_high_asc _ _ _ _ h1 h2,
        h p hp, h (p - 2 ^ a) hpj]
    · rw [cmpSwap_high_desc _ _ _ _ h1 h2, cmpSwap_high_desc _ _ _ _ h1 h2,
        h p hp, h (p - 2 ^ a) hpj]

/-- On the buffer range, the dispatch fold of `argsort` computes exactly the
pure comparator network on the keys. -/
theorem argsort_values_eq_valNet {α : Type} [LinearOrder α] (T : Nat) (keys : Nat → α) :
    ∀ p, p < 2 ^ T → (argsortBuffers (2 ^ T) keys).values p = valNet (2 ^ T) keys p := by
  have main : ∀ (l : List (Nat × Nat)),
      (∀ pr ∈ l, ∃ b x, b ≤ x ∧ x < T ∧ pr.1 = 2 ^ b ∧ pr.2 = 2 ^ (x + 1)) →
      ∀ (s : SortBuffers α) (v : Nat → α), (∀ p, p < 2 ^ T → s.values p = v p) →
      ∀ p, p < 2 ^ T →
        (l.foldl (fun b pr => bitonicDispatch (2 ^ T) pr.1 pr.2 b) s).values p =
        (l.foldl (fun w pr => cmpSwap pr.1 pr.2 w) v) p := by
    intro l
    induction l with
    | nil => intro _ s v h p hp; exact h p hp
    | cons pr rest ih =>
      intro hl s v h p hp
      rw [List.foldl_cons, List.foldl_cons]
      obtain ⟨b, x, hbx, hxT, h1, h2⟩ := hl pr (by simp)
      have hstep : ∀ q, q < 2 ^ T →
          (bitonicDispatch (2 ^ T) pr.1 pr.2 s).values q = cmpSwap pr.1 pr.2 v q := by
        intro q hq
        rw [h1, h2]
        rw [bitonicDispatch_values b (x + 1) T (by omega) (by omega) s q, if_pos hq]
        exact cmpSwap_congr b (x + 1) T (by omega) (by omega) s.values v h q hq
      exact ih (fun pr' hpr' => hl pr' (by simp [hpr'])) _ _ hstep p hp
  intro p hp
  rw [argsortBuffers, valNet]
  exact main (uniformsList (2 ^ T))
    (fun pr hpr => by
      obtain ⟨b, x, hbx, hxT, h1, h2⟩ := uniformsList_mem T pr.1 pr.2 (by
        have : pr = (pr.1, pr.2) := rfl
        rw [← this]
        exact hpr)
      exact ⟨b, x, hbx, hxT, h1, h2⟩)
    _ keys (fun _ _ => rfl) p hp

theorem cmpSwap_monotone_comm {α β : Type} [LinearOrder α] [LinearOrder β] (f : α → β)
    (hf : Monotone f) (J K : Nat) (v : Nat → α) :
    cmpSwap J K (fun p => f (v p)) = fun p => f (cmpSwap J K v p) := by
  funext p
  by_cases h1 : p % (2 * J) < J
  · by_cases h2 : p % (2 * K) < K
    · rw [cmpSwap_low_asc _ _ _ _ h1 h2, cmpSwap_low_asc _ _ _ _ h1 h2, hf.map_min]
    · rw [cmpSwap_low_desc _ _ _ _ h1 h2, cmpSwap_low_desc _ _ _ _ h1 h2, hf.map_max]
  · by_cases h2 : p % (2 * K) < K
    · rw [cmpSwap_high_asc _ _ _ _ h1 h2, cmpSwap_high_asc _ _ _ _ h1 h2, hf.map_max]
    · rw [cmpSwap_high_desc _ _ _ _ h1 h2, cmpSwap_high_desc _ _ _ _ h1 h2, hf.map_min]

theorem valNet_monotone_comm {α β : Type} [LinearOrder α] [LinearOrder β] (f : α → β)
    (hf : Monotone f) (n : Nat) (v : Nat → α) :
    valNet n (fun p => f (v p)) = fun p => f (valNet n v p) := by
  rw [valNet, valNet]
  induction (uniformsList n) generalizing v with
  | nil => rfl
  | cons pr rest ih =>
    rw [List.foldl_cons, List.foldl_cons, cmpSwap_monotone_comm f hf pr.1 pr.2 v]
    exact ih (cmpSwap pr.1 pr.2 v)

/-- Zero-one principle, specialized to the network at hand: if the network
sorts every boolean buffer, it sorts over every linear order. -/
theorem valNet_sorted_of_bool (n : Nat)
    (hB : ∀ w : Nat → Bool, ∀ p q, p ≤ q → q < n → valNet n w p ≤ valNet n w q)
    {α : Type} [LinearOrder α] (v : Nat → α) :
    ∀ p q, p ≤ q → q < n → valNet n v p ≤ valNet n v q := by
  intro p q hpq hq
  by_contra hcon
  push_neg at hcon
  set f : α → Bool := fun x => decide (valNet n v p ≤ x) with hfdef
  have hf : Monotone f := by
    intro x y hxy
    by_cases hx : valNet n v p ≤ x
    · simp [hfdef, hx, le_trans hx hxy]
    · simp [hfdef, hx]
  have hcomm := valNet_monotone_comm f hf n v
  have hsorted := hB (fun r => f (v r)) p q hpq hq
  rw [hcomm] at hsorted
  have hp : f (valNet n v p) = true := by simp [hfdef]
  have hq2 : f (valNet n v q) = false := by
    simp only [hfdef, decide_eq_false_iff_not]
    exact not_le.mpr hcon
  dsimp only at hsorted
  rw [hp, hq2] at hsorted
  exact absurd hsorted (by decide)

/-! ### Boolean bitonic-merge combinatorics

By the zero-one principle it suffices to show the network sorts boolean
buffers.  On booleans a block is "bitonic" exactly when its ones form a
contiguous window (`WinOn`, shape 0..01..10..0) or the complement of one
(`CoWinOn`, shape 1..10..01..1). -/

def AllFalseOn (v : Nat → Bool) (A L : Nat) : Prop := ∀ t, t < L → v (A + t) = false

def AllTrueOn (v : Nat → Bool) (A L : Nat) : Prop := ∀ t, t < L → v (A + t) = true

def WinOn (v : Nat → Bool) (A L : Nat) : Prop :=
  ∃ x y, ∀ t, t < L → (v (A + t) = true ↔ (x ≤ t ∧ t < y))

def CoWinOn (v : Nat → Bool) (A L : Nat) : Prop :=
  ∃ x y, x ≤ y ∧ ∀ t, t < L → (v (A + t) = true ↔ (t < x ∨ y ≤ t))

def Bit01On (v : Nat → Bool) (A L : Nat) : Prop := WinOn v A L ∨ CoWinOn v A L

def AscOn (v : Nat → Bool) (A L : Nat) : Prop :=
  ∀ t u, t ≤ u → u < L → v (A + t) ≤ v (A + u)

def DescOn (v : Nat → Bool) (A L : Nat) : Prop :=
  ∀ t u, t ≤ u → u < L → v (A + u) ≤ v (A + t)

theorem bool_min_eq_true (a b : Bool) : (min a b = true) ↔ (a = true ∧ b = true) := by
  cases a <;> cases b <;> decide

theorem bool_max_eq_true (a b : Bool) : (max a b = true) ↔ (a = true ∨ b = true) := by
  cases a <;> cases b <;> decide

theorem bool_min_not (a b : Bool) : min (!a) (!b) = !(max a b) := by
  cases a <;> cases b <;> decide

theorem bool_max_not (a b : Bool) : max (!a) (!b) = !(min a b) := by
  cases a <;> cases b <;> decide

theorem bool_le_iff (a b : Bool) : a ≤ b ↔ (a = true → b = true) := by
  cases a <;> cases b <;> decide

theorem bool_not_true_iff (a : Bool) : ((!a) = true) ↔ (a = false) := by
  cases a <;> decide

theorem bool_false_iff_not_true (a : Bool) : (a = false) ↔ ¬ (a = true) := by
  cases a <;> decide

/-- Ascending boolean blocks are characterized by a cut point: everything
from some offset on is true, everything before it is false. -/
theorem ascOn_char (v : Nat → Bool) (A L : Nat) (h : AscOn v A L) :
    ∃ c, c ≤ L ∧ ∀ t, t < L → (v (A + t) = true ↔ c ≤ t) := by
  by_cases hex : ∃ t, t < L ∧ v (A + t) = true
  · have hc := Nat.find_spec hex
    refine ⟨Nat.find hex, by omega, ?_⟩
    intro t ht
    constructor
    · intro htrue
      by_contra hlt
      push_neg at hlt
      exact Nat.find_min hex hlt ⟨ht, htrue⟩
    · intro hce
      have := h (Nat.find hex) t hce ht
      rw [hc.2] at this
      rw [bool_le_iff] at this
      exact this rfl
  · push_neg at hex
    refine ⟨L, le_rfl, ?_⟩
    intro t ht
    constructor
    · intro htrue
      exact absurd htrue (hex t ht)
    · intro hLt
      omega

/-- Descending boolean blocks: everything before some cut point is true. -/
theorem descOn_char (v : Nat → Bool) (A L : Nat) (h : DescOn v A L) :
    ∃ c, c ≤ L ∧ ∀ t, t < L → (v (A + t) = true ↔ t < c) := by
  by_cases hex : ∃ t, t < L ∧ v (A + t) = false
  · have hc := Nat.find_spec hex
    refine ⟨Nat.find hex, by omega, ?_⟩
    intro t ht
    constructor
    · intro htrue
      by_contra hge
      push_neg at hge
      have hle := h (Nat.find hex) t hge ht
      rw [htrue, hc.2] at hle
      exact absurd hle (by decide)
    · intro hlt
      have hmin := Nat.find_min hex hlt
      push_neg at hmin
      rcases Bool.eq_false_or_eq_true (v (A + t)) with htr | hf
      · exact htr
      · exact absurd hf (hmin ht)
  · push_neg at hex
    refine ⟨L, le_rfl, ?_⟩
    intro t ht
    constructor
    · intro _; omega
    · intro _
      rcases Bool.eq_false_or_eq_true (v (A + t)) with htr | hf
      · exact htr
      · exact absurd hf (hex t ht)

/-- An ascending block followed by a descending block of equal size forms a
window-shaped boolean block. -/
theorem win_of_asc_desc (v : Nat → Bool) (A L : Nat) (h1 : AscOn v A L)
    (h2 : DescOn v (A + L) L) : WinOn v A (2 * L) := by
  obtain ⟨c1, hc1, hw1⟩ := ascOn_char v A L h1
  obtain ⟨c2, hc2, hw2⟩ := descOn_char v (A + L) L h2
  refine ⟨c1, L + c2, ?_⟩
  intro t ht
  by_cases htL : t < L
  · rw [hw1 t htL]
    omega
  · have hu : t - L < L := by omega
    have hrw : A + L + (t - L) = A + t := by omega
    have := hw2 (t - L) hu
    rw [hrw] at this
    rw [this]
    omega

/-- Half-cleaner on a bitonic boolean block: pairing each element of the
lower half with its partner in the upper half (minimum down, maximum up)
leaves both halves bitonic, and afterwards the lower half is all false or
the upper half is all true. -/
theorem halfClean_core (v : Nat → Bool) (A J : Nat) (hJ : 0 < J)
    (lo hi : Nat → Bool) (Alo Ahi : Nat)
    (hlo : ∀ t, t < J → lo (Alo + t) = min (v (A + t)) (v (A + (J + t))))
    (hhi : ∀ t, t < J → hi (Ahi + t) = max (v (A + t)) (v (A + (J + t))))
    (hB : Bit01On v A (2 * J)) :
    Bit01On lo Alo J ∧ Bit01On hi Ahi J ∧
    (AllFalseOn lo Alo J ∨ AllTrueOn hi Ahi J) := by
  rcases hB with ⟨x, y, hw⟩ | ⟨x, y, hxy, hw⟩
  · have hloP : ∀ t, t < J → (lo (Alo + t) = true ↔ (x ≤ t ∧ t + J < y)) := by
      intro t ht
      rw [hlo t ht, bool_min_eq_true, hw t (by omega), hw (J + t) (by omega)]
      omega
    have hhiP : ∀ t, t < J →
        (hi (Ahi + t) = true ↔ ((x ≤ t ∧ t < y) ∨ (x ≤ J + t ∧ J + t < y))) := by
      intro t ht
      rw [hhi t ht, bool_max_eq_true, hw t (by omega), hw (J + t) (by omega)]
    refine ⟨?_, ?_, ?_⟩
    · exact Or.inl ⟨x, y - J, fun t ht => by rw [hloP t ht]; omega⟩
    · by_cases hc1 : y ≤ J
      · exact Or.inl ⟨x, y, fun t ht => by rw [hhiP t ht]; omega⟩
      · by_cases hc2 : J ≤ x
        · exact Or.inl ⟨x - J, y - J, fun t ht => by rw [hhiP t ht]; omega⟩
        · by_cases hc3 : x + J ≤ y
          · exact Or.inl ⟨0, J, fun t ht => by rw [hhiP t ht]; omega⟩
          · exact Or.inr ⟨y - J, x, by omega, fun t ht => by rw [hhiP t ht]; omega⟩
    · by_cases hAF : AllFalseOn lo Alo J
      · exact Or.inl hAF
      · refine Or.inr ?_
        simp only [AllFalseOn] at hAF
        push_neg at hAF
        obtain ⟨t0, ht0, hne⟩ := hAF
        have ht0true : lo (Alo + t0) = true := by
          rcases Bool.eq_false_or_eq_true (lo (Alo + t0)) with h | h
          · exact h
          · exact absurd h hne
        rw [hloP t0 ht0] at ht0true
        intro t ht
        rw [hhiP t ht]
        omega
  · have hloP : ∀ t, t < J →
        (lo (Alo + t) = true ↔ ((t < x ∨ y ≤ t) ∧ (J + t < x ∨ y ≤ J + t))) := by
      intro t ht
      rw [hlo t ht, bool_min_eq_true, hw t (by omega), hw (J + t) (by omega)]
    have hhiP : ∀ t, t < J →
        (hi (Ahi + t) = true ↔ ((t < x ∨ y ≤ t) ∨ (J + t < x ∨ y ≤ J + t))) := by
      intro t ht
      rw [hhi t ht, bool_max_eq_true, hw t (by omega), hw (J + t) (by omega)]
    refine ⟨?_, ?_, ?_⟩
    · by_cases hd1 : y ≤ J
      · exact Or.inr ⟨x, y, hxy, fun t ht => by rw [hloP t ht]; omega⟩
      · by_cases hd2 : J ≤ x
        · exact Or.inr ⟨x - J, y - J, by omega, fun t ht => by rw [hloP t ht]; omega⟩
        · exact Or.inl ⟨y - J, x, fun t ht => by rw [hloP t ht]; omega⟩
    · by_cases hd1 : y ≤ J
      · exact Or.inl ⟨0, J, fun t ht => by rw [hhiP t ht]; omega⟩
      · by_cases hd2 : J ≤ x
        · exact Or.inl ⟨0, J, fun t ht => by rw [hhiP t ht]; omega⟩
        · by_cases hd3 : x + J ≤ y
          · exact Or.inr ⟨x, y - J, by omega, fun t ht => by rw [hhiP t ht]; omega⟩
          · exact Or.inl ⟨0, J, fun t ht => by rw [hhiP t ht]; omega⟩
    · by_cases hAF : AllFalseOn lo Alo J
      · exact Or.inl hAF
      · refine Or.inr ?_
        simp only [AllFalseOn] at hAF
        push_neg at hAF
        obtain ⟨t0, ht0, hne⟩ := hAF
        have ht0true : lo (Alo + t0) = true := by
          rcases Bool.eq_false_or_eq_true (lo (Alo + t0)) with h | h
          · exact h
          · exact absurd h hne
        rw [hloP t0 ht0] at ht0true
        intro t ht
        rw [hhiP t ht]
        omega

theorem bit01_compl (v : Nat → Bool) (A L : Nat) (h : Bit01On v A L) :
    Bit01On (fun p => ! v p) A L := by
  rcases h with ⟨x, y, hw⟩ | ⟨x, y, hxy, hw⟩
  · by_cases hxy' : x ≤ y
    · refine Or.inr ⟨x, y, hxy', ?_⟩
      intro t ht
      rw [bool_not_true_iff, bool_false_iff_not_true, hw t ht]
      omega
    · refine Or.inl ⟨0, L, ?_⟩
      intro t ht
      rw [bool_not_true_iff, bool_false_iff_not_true, hw t ht]
      omega
  · refine Or.inl ⟨x, y, ?_⟩
    intro t ht
    rw [bool_not_true_iff, bool_false_iff_not_true, hw t ht]
    omega

theorem allFalse_compl (v : Nat → Bool) (A L : Nat) :
    AllFalseOn (fun p => ! v p) A L ↔ AllTrueOn v A L := by
  constructor
  · intro h t ht
    have := h t ht
    simp only [Bool.not_eq_false'] at this
    exact this
  · intro h t ht
    simp only [h t ht]
    rfl

theorem allTrue_compl (v : Nat → Bool) (A L : Nat) :
    AllTrueOn (fun p => ! v p) A L ↔ AllFalseOn v A L := by
  constructor
  · intro h t ht
    have := h t ht
    simp only [Bool.not_eq_true'] at this
    exact this
  · intro h t ht
    simp only [h t ht]
    rfl

/-- Descending half-cleaner (maximum goes down, minimum up): dual statement,
obtained from `halfClean_core` by complementing the buffer. -/
theorem halfClean_core_desc (v : Nat → Bool) (A J : Nat) (hJ : 0 < J)
    (lo hi : Nat → Bool) (Alo Ahi : Nat)
    (hlo : ∀ t, t < J → lo (Alo + t) = max (v (A + t)) (v (A + (J + t))))
    (hhi : ∀ t, t < J → hi (Ahi + t) = min (v (A + t)) (v (A + (J + t))))
    (hB : Bit01On v A (2 * J)) :
    Bit01On lo Alo J ∧ Bit01On hi Ahi J ∧
    (AllTrueOn lo Alo J ∨ AllFalseOn hi Ahi J) := by
  have hcore := halfClean_core (fun p => ! v p) A J hJ
    (fun p => ! lo p) (fun p => ! hi p) Alo Ahi
    (fun t ht => by simp only; rw [hlo t ht, bool_min_not])
    (fun t ht => by simp only; rw [hhi t ht, bool_max_not])
    (bit01_compl v A (2 * J) hB)
  obtain ⟨h1, h2, h3⟩ := hcore
  refine ⟨?_, ?_, ?_⟩
  · have := bit01_compl (fun p => ! lo p) Alo J h1
    simp only [Bool.not_not] at this
    exact this
  · have := bit01_compl (fun p => ! hi p) Ahi J h2
    simp only [Bool.not_not] at this
    exact this
  · rcases h3 with h | h
    · exact Or.inl ((allFalse_compl lo Alo J).mp h)
    · exact Or.inr ((allTrue_compl hi Ahi J).mp h)

/-- Direction of a position inside aligned block `m` of size `k`: the test
`p % 2k < k` reads the parity of the block index. -/
theorem dir_mod (k m r : Nat) (hk : 0 < k) (hr : r < k) :
    ((m * k + r) % (2 * k) < k) ↔ m % 2 = 0 := by
  obtain ⟨u, e, he, hm⟩ : ∃ u e, e ≤ 1 ∧ m = 2 * u + e := ⟨m / 2, m % 2, by omega, by omega⟩
  subst hm
  have hrw : (2 * u + e) * k + r = (2 * k) * u + (e * k + r) := by ring
  rw [hrw, Nat.mul_add_mod]
  have he2 : e = 0 ∨ e = 1 := by omega
  rcases he2 with rfl | rfl
  · simp only [zero_mul, Nat.zero_add]
    rw [Nat.mod_eq_of_lt (by omega)]
    omega
  · simp only [one_mul]
    rw [Nat.mod_eq_of_lt (by omega)]
    omega

/-- Pointwise behaviour of one merge layer (distance `2^b` inside stage
`2^(s+1)`) on each aligned `2^(b+1)` block, split by the direction of the
containing stage block. -/
theorem cmpSwap_block_char {α : Type} [LinearOrder α] (b s : Nat) (hbs : b ≤ s)
    (v : Nat → α) (w t : Nat) (ht : t < 2 ^ b) :
    (((w * 2 ^ (b + 1)) / 2 ^ (s + 1)) % 2 = 0 →
      (cmpSwap (2 ^ b) (2 ^ (s + 1)) v (w * 2 ^ (b + 1) + t) =
        min (v (w * 2 ^ (b + 1) + t)) (v (w * 2 ^ (b + 1) + (2 ^ b + t))) ∧
       cmpSwap (2 ^ b) (2 ^ (s + 1)) v (w * 2 ^ (b + 1) + (2 ^ b + t)) =
        max (v (w * 2 ^ (b + 1) + t)) (v (w * 2 ^ (b + 1) + (2 ^ b + t))))) ∧
    (((w * 2 ^ (b + 1)) / 2 ^ (s + 1)) % 2 = 1 →
      (cmpSwap (2 ^ b) (2 ^ (s + 1)) v (w * 2 ^ (b + 1) + t) =
        max (v (w * 2 ^ (b + 1) + t)) (v (w * 2 ^ (b + 1) + (2 ^ b + t))) ∧
       cmpSwap (2 ^ b) (2 ^ (s + 1)) v (w * 2 ^ (b + 1) + (2 ^ b + t)) =
        min (v (w * 2 ^ (b + 1) + t)) (v (w * 2 ^ (b + 1) + (2 ^ b + t))))) := by
  have hJpos : (0 : Nat) < 2 ^ b := Nat.pos_pow_of_pos _ (by omega)
  have h2JD : 2 * 2 ^ b = 2 ^ (b + 1) := two_mul_pow b
  have h2k : 2 * 2 ^ (s + 1) = 2 ^ (s + 1 + 1) := two_mul_pow (s + 1)
  have hDk : 2 ^ (b + 1) * 2 ^ (s - b) = 2 ^ (s + 1) := by
    have h := pow_mul_split (b + 1) (s + 1) (by omega)
    have heq : s + 1 - (b + 1) = s - b := by omega
    rw [heq] at h
    exact h
  have hEpos : (0 : Nat) < 2 ^ (s - b) := Nat.pos_pow_of_pos _ (by omega)
  have hkpos : (0 : Nat) < 2 ^ (s + 1) := Nat.pos_pow_of_pos _ (by omega)
  have hmodD : ∀ x, x < 2 ^ (b + 1) → (w * 2 ^ (b + 1) + x) % (2 ^ (b + 1)) = x := by
    intro x hx
    rw [mul_comm, Nat.mul_add_mod, Nat.mod_eq_of_lt hx]
  have hCk : (w * 2 ^ (b + 1)) % 2 ^ (s + 1) = 2 ^ (b + 1) * (w % 2 ^ (s - b)) := by
    rw [mul_comm w (2 ^ (b + 1)), ← hDk, Nat.mul_mod_mul_left]
  have hrk : ∀ x, x < 2 ^ (b + 1) → (w * 2 ^ (b + 1)) % 2 ^ (s + 1) + x < 2 ^ (s + 1) := by
    intro x hx
    have h1 : w % 2 ^ (s - b) + 1 ≤ 2 ^ (s - b) := Nat.mod_lt _ hEpos
    have h2 : 2 ^ (b + 1) * (w % 2 ^ (s - b) + 1) ≤ 2 ^ (b + 1) * 2 ^ (s - b) :=
      Nat.mul_le_mul_left _ h1
    rw [Nat.mul_succ] at h2
    omega
  have hdir : ∀ x, x < 2 ^ (b + 1) →
      (((w * 2 ^ (b + 1) + x) % (2 * 2 ^ (s + 1)) < 2 ^ (s + 1)) ↔
       ((w * 2 ^ (b + 1)) / 2 ^ (s + 1)) % 2 = 0) := by
    intro x hx
    have hdm : ((w * 2 ^ (b + 1)) / 2 ^ (s + 1)) * 2 ^ (s + 1) +
        (w * 2 ^ (b + 1)) % 2 ^ (s + 1) = w * 2 ^ (b + 1) := by
      rw [mul_comm]
      exact Nat.div_add_mod _ _
    have hrw : w * 2 ^ (b + 1) + x =
        ((w * 2 ^ (b + 1)) / 2 ^ (s + 1)) * 2 ^ (s + 1) +
          ((w * 2 ^ (b + 1)) % 2 ^ (s + 1) + x) := by
      omega
    rw [hrw]
    exact dir_mod (2 ^ (s + 1)) _ _ hkpos (hrk x hx)
  have hlowmod : (w * 2 ^ (b + 1) + t) % (2 * 2 ^ b) < 2 ^ b := by
    rw [h2JD, hmodD t (by omega)]
    exact ht
  have hhighmod : ¬ ((w * 2 ^ (b + 1) + (2 ^ b + t)) % (2 * 2 ^ b) < 2 ^ b) := by
    rw [h2JD, hmodD (2 ^ b + t) (by rw [← h2JD]; omega)]
    omega
  have hlowadd : w * 2 ^ (b + 1) + t + 2 ^ b = w * 2 ^ (b + 1) + (2 ^ b + t) := by omega
  have hhighsub : w * 2 ^ (b + 1) + (2 ^ b + t) - 2 ^ b = w * 2 ^ (b + 1) + t := by omega
  constructor
  · intro hm
    have hd1 : (w * 2 ^ (b + 1) + t) % (2 * 2 ^ (s + 1)) < 2 ^ (s + 1) :=
      (hdir t (by omega)).mpr hm
    have hd2 : (w * 2 ^ (b + 1) + (2 ^ b + t)) % (2 * 2 ^ (s + 1)) < 2 ^ (s + 1) :=
      (hdir (2 ^ b + t) (by rw [← h2JD]; omega)).mpr hm
    constructor
    · rw [cmpSwap_low_asc _ _ _ _ hlowmod hd1, hlowadd]
    · rw [cmpSwap_high_asc _ _ _ _ hhighmod hd2, hhighsub]
  · intro hm
    have hd1 : ¬ ((w * 2 ^ (b + 1) + t) % (2 * 2 ^ (s + 1)) < 2 ^ (s + 1)) := by
      rw [hdir t (by omega)]
      omega
    have hd2 : ¬ ((w * 2 ^ (b + 1) + (2 ^ b + t)) % (2 * 2 ^ (s + 1)) < 2 ^ (s + 1)) := by
      rw [hdir (2 ^ b + t) (by rw [← h2JD]; omega)]
      omega
    constructor
    · rw [cmpSwap_low_desc _ _ _ _ hlowmod hd1, hlowadd]
    · rw [cmpSwap_high_desc _ _ _ _ hhighmod hd2, hhighsub]

theorem bool_min_false (a b : Bool) (ha : a = false) (hb : b = false) : min a b = false := by
  subst ha; subst hb; rfl

theorem bool_max_false (a b : Bool) (ha : a = false) (hb : b = false) : max a b = false := by
  subst ha; subst hb; rfl

theorem bool_min_true (a b : Bool) (ha : a = true) (hb : b = true) : min a b = true := by
  subst ha; subst hb; rfl

theorem bool_max_true (a b : Bool) (ha : a = true) (hb : b = true) : max a b = true := by
  subst ha; subst hb; rfl

/-- One merge layer keeps an all-false aligned `2^(b+1)` block all false. -/
theorem allFalse_descend (b s : Nat) (hbs : b ≤ s) (v : Nat → Bool) (w : Nat)
    (hall : AllFalseOn v (w * 2 ^ (b + 1)) (2 ^ (b + 1))) :
    AllFalseOn (cmpSwap (2 ^ b) (2 ^ (s + 1)) v) (w * 2 ^ (b + 1)) (2 ^ (b + 1)) := by
  have h2JD : 2 * 2 ^ b = 2 ^ (b + 1) := two_mul_pow b
  intro x hx
  have hm : ((w * 2 ^ (b + 1)) / 2 ^ (s + 1)) % 2 = 0 ∨
      ((w * 2 ^ (b + 1)) / 2 ^ (s + 1)) % 2 = 1 := by omega
  by_cases hxJ : x < 2 ^ b
  · obtain ⟨hasc, hdesc⟩ := cmpSwap_block_char b s hbs v w x hxJ
    have hv1 := hall x (by omega)
    have hv2 := hall (2 ^ b + x) (by omega)
    rcases hm with hm | hm
    · rw [(hasc hm).1]
      exact bool_min_false _ _ hv1 hv2
    · rw [(hdesc hm).1]
      exact bool_max_false _ _ hv1 hv2
  · have ht : x - 2 ^ b < 2 ^ b := by omega
    have hxrw : x = 2 ^ b + (x - 2 ^ b) := by omega
    obtain ⟨hasc, hdesc⟩ := cmpSwap_block_char b s hbs v w (x - 2 ^ b) ht
    have hv1 := hall (x - 2 ^ b) (by omega)
    have hv2 := hall (2 ^ b + (x - 2 ^ b)) (by omega)
    rw [hxrw]
    rcases hm with hm | hm
    · rw [(hasc hm).2]
      exact bool_max_false _ _ hv1 hv2
    · rw [(hdesc hm).2]
      exact bool_min_false _ _ hv1 hv2

/-- One merge layer keeps an all-true aligned `2^(b+1)` block all true. -/
theorem allTrue_descend (b s : Nat) (hbs : b ≤ s) (v : Nat → Bool) (w : Nat)
    (hall : AllTrueOn v (w * 2 ^ (b + 1)) (2 ^ (b + 1))) :
    AllTrueOn (cmpSwap (2 ^ b) (2 ^ (s + 1)) v) (w * 2 ^ (b + 1)) (2 ^ (b + 1)) := by
  have h2JD : 2 * 2 ^ b = 2 ^ (b + 1) := two_mul_pow b
  intro x hx
  have hm : ((w * 2 ^ (b + 1)) / 2 ^ (s + 1)) % 2 = 0 ∨
      ((w * 2 ^ (b + 1)) / 2 ^ (s + 1)) % 2 = 1 := by omega
  by_cases hxJ : x < 2 ^ b
  · obtain ⟨hasc, hdesc⟩ := cmpSwap_block_char b s hbs v w x hxJ
    have hv1 := hall x (by omega)
    have hv2 := hall (2 ^ b + x) (by omega)
    rcases hm with hm | hm
    · rw [(hasc hm).1]
      exact bool_min_true _ _ hv1 hv2
    · rw [(hdesc hm).1]
      exact bool_max_true _ _ hv1 hv2
  · have ht : x - 2 ^ b < 2 ^ b := by omega
    have hxrw : x = 2 ^ b + (x - 2 ^ b) := by omega
    obtain ⟨hasc, hdesc⟩ := cmpSwap_block_char b s hbs v w (x - 2 ^ b) ht
    have hv1 := hall (x - 2 ^ b) (by omega)
    have hv2 := hall (2 ^ b + (x - 2 ^ b)) (by omega)
    rw [hxrw]
    rcases hm with hm | hm
    · rw [(hasc hm).2]
      exact bool_max_true _ _ hv1 hv2
    · rw [(hdesc hm).2]
      exact bool_min_true _ _ hv1 hv2

theorem allFalse_restrict (v : Nat → Bool) (A L A' L' : Nat) (h : AllFalseOn v A L)
    (hA : A ≤ A') (hL : A' + L' ≤ A + L) : AllFalseOn v A' L' := by
  intro t ht
  have := h (A' - A + t) (by omega)
  rwa [show A + (A' - A + t) = A' + t by omega] at this

theorem allTrue_restrict (v : Nat → Bool) (A L A' L' : Nat) (h : AllTrueOn v A L)
    (hA : A ≤ A') (hL : A' + L' ≤ A + L) : AllTrueOn v A' L' := by
  intro t ht
  have := h (A' - A + t) (by omega)
  rwa [show A + (A' - A + t) = A' + t by omega] at this

/-- Remaining layers of one merge stage: `mergeLayers k b` applies the
comparator layers at distances `2^(b-1), ..., 2^0` (largest first) for stage
size `k`. -/
def mergeLayers (k : Nat) : Nat → (Nat → Bool) → (Nat → Bool)
  | 0, v => v
  | b + 1, v => mergeLayers k b (cmpSwap (2 ^ b) k v)

theorem foldl_jList_eq_mergeLayers (k : Nat) :
    ∀ (b : Nat) (v : Nat → Bool),
      (jList (2 ^ b)).foldl (fun w j => cmpSwap j k w) v = mergeLayers k (b + 1) v := by
  intro b
  induction b with
  | zero =>
    intro v
    rw [pow_zero, jList_one]
    simp only [List.foldl_cons, List.foldl_nil]
    show cmpSwap 1 k v = mergeLayers k 0 (cmpSwap (2 ^ 0) k v)
    rw [pow_zero]
    rfl
  | succ b ih =>
    intro v
    rw [jList_pow_succ, List.foldl_cons, ih]
    rfl

theorem foldl_mergePairs_eq (s : Nat) (v : Nat → Bool) :
    (mergePairs (2 ^ (s + 1))).foldl (fun w pr => cmpSwap pr.1 pr.2 w) v =
      mergeLayers (2 ^ (s + 1)) (s + 1) v := by
  rw [mergePairs]
  have hshift : (2 ^ (s + 1)) >>> 1 = 2 ^ s := by
    rw [Nat.shiftRight_one, pow_succ, Nat.mul_div_cancel _ (by omega)]
  rw [hshift, List.foldl_map]
  exact foldl_jList_eq_mergeLayers (2 ^ (s + 1)) s v

theorem div_block_eq (k m r : Nat) (hk : 0 < k) (hr : r < k) : (m * k + r) / k = m := by
  rw [mul_comm, Nat.mul_add_div hk, Nat.div_eq_of_lt hr]
  omega

/-- Bitonic merge, boolean case.  If every aligned `2^b` sub-block is bitonic
and, inside every stage block of size `2^(s+1)`, any two `2^b` sub-blocks are
separated in the stage direction, then the remaining `b` comparator layers
sort every stage block in its direction. -/
theorem mergeLayers_sorts (s : Nat) :
    ∀ b, b ≤ s + 1 → ∀ v : Nat → Bool,
    (∀ u : Nat, Bit01On v (u * 2 ^ b) (2 ^ b)) →
    (∀ m u1 u2 : Nat, u1 < u2 → u2 * 2 ^ b < 2 ^ (s + 1) →
      ((m % 2 = 0 → (AllFalseOn v (m * 2 ^ (s + 1) + u1 * 2 ^ b) (2 ^ b) ∨
                     AllTrueOn v (m * 2 ^ (s + 1) + u2 * 2 ^ b) (2 ^ b))) ∧
       (m % 2 = 1 → (AllTrueOn v (m * 2 ^ (s + 1) + u1 * 2 ^ b) (2 ^ b) ∨
                     AllFalseOn v (m * 2 ^ (s + 1) + u2 * 2 ^ b) (2 ^ b))))) →
    ∀ m : Nat,
      (m % 2 = 0 → AscOn (mergeLayers (2 ^ (s + 1)) b v) (m * 2 ^ (s + 1)) (2 ^ (s + 1))) ∧
      (m % 2 = 1 → DescOn (mergeLayers (2 ^ (s + 1)) b v) (m * 2 ^ (s + 1)) (2 ^ (s + 1))) := by
  intro b
  induction b with
  | zero =>
    intro _ v hBit hSep m
    constructor
    · intro hm t u htu hu
      show v (m * 2 ^ (s + 1) + t) ≤ v (m * 2 ^ (s + 1) + u)
      rcases Nat.eq_or_lt_of_le htu with rfl | hlt
      · exact le_rfl
      · have hsep := (hSep m t u hlt (by simpa using hu)).1 hm
        rcases hsep with hF | hT
        · have hv := hF 0 (by norm_num)
          rw [show m * 2 ^ (s + 1) + t * 2 ^ 0 + 0 = m * 2 ^ (s + 1) + t by simp] at hv
          rw [hv]
          exact Bool.false_le _
        · have hv := hT 0 (by norm_num)
          rw [show m * 2 ^ (s + 1) + u * 2 ^ 0 + 0 = m * 2 ^ (s + 1) + u by simp] at hv
          rw [hv]
          exact Bool.le_true _
    · intro hm t u htu hu
      show v (m * 2 ^ (s + 1) + u) ≤ v (m * 2 ^ (s + 1) + t)
      rcases Nat.eq_or_lt_of_le htu with rfl | hlt
      · exact le_rfl
      · have hsep := (hSep m t u hlt (by simpa using hu)).2 hm
        rcases hsep with hT | hF
        · have hv := hT 0 (by norm_num)
          rw [show m * 2 ^ (s + 1) + t * 2 ^ 0 + 0 = m * 2 ^ (s + 1) + t by simp] at hv
          rw [hv]
          exact Bool.le_true _
        · have hv := hF 0 (by norm_num)
          rw [show m * 2 ^ (s + 1) + u * 2 ^ 0 + 0 = m * 2 ^ (s + 1) + u by simp] at hv
          rw [hv]
          exact Bool.false_le _
  | succ b ih =>
    intro hble v hBit hSep m
    have hbs : b ≤ s := by omega
    have hJpos : (0 : Nat) < 2 ^ b := Nat.pos_pow_of_pos _ (by omega)
    have h2JD : 2 * 2 ^ b = 2 ^ (b + 1) := two_mul_pow b
    have hkpos : (0 : Nat) < 2 ^ (s + 1) := Nat.pos_pow_of_pos _ (by omega)
    have hDk : 2 ^ (b + 1) * 2 ^ (s - b) = 2 ^ (s + 1) := by
      have h := pow_mul_split (b + 1) (s + 1) (by omega)
      have heq : s + 1 - (b + 1) = s - b := by omega
      rw [heq] at h
      exact h
    set v' := cmpSwap (2 ^ b) (2 ^ (s + 1)) v with hv'def
    have hclean : ∀ w : Nat,
        Bit01On v' (w * 2 ^ (b + 1)) (2 ^ b) ∧
        Bit01On v' (w * 2 ^ (b + 1) + 2 ^ b) (2 ^ b) ∧
        ((((w * 2 ^ (b + 1)) / 2 ^ (s + 1)) % 2 = 0 →
            (AllFalseOn v' (w * 2 ^ (b + 1)) (2 ^ b) ∨
             AllTrueOn v' (w * 2 ^ (b + 1) + 2 ^ b) (2 ^ b))) ∧
         (((w * 2 ^ (b + 1)) / 2 ^ (s + 1)) % 2 = 1 →
            (AllTrueOn v' (w * 2 ^ (b + 1)) (2 ^ b) ∨
             AllFalseOn v' (w * 2 ^ (b + 1) + 2 ^ b) (2 ^ b)))) := by
      intro w
      have hB : Bit01On v (w * 2 ^ (b + 1)) (2 * 2 ^ b) := by
        rw [h2JD]
        exact hBit w
      have hm2 : ((w * 2 ^ (b + 1)) / 2 ^ (s + 1)) % 2 = 0 ∨
          ((w * 2 ^ (b + 1)) / 2 ^ (s + 1)) % 2 = 1 := by omega
      rcases hm2 with hm | hm
      · have hlo : ∀ t, t < 2 ^ b → v' (w * 2 ^ (b + 1) + t) =
            min (v (w * 2 ^ (b + 1) + t)) (v (w * 2 ^ (b + 1) + (2 ^ b + t))) := by
          intro t ht
          exact ((cmpSwap_block_char b s hbs v w t ht).1 hm).1
        have hhi : ∀ t, t < 2 ^ b → v' (w * 2 ^ (b + 1) + 2 ^ b + t) =
            max (v (w * 2 ^ (b + 1) + t)) (v (w * 2 ^ (b + 1) + (2 ^ b + t))) := by
          intro t ht
          have h := ((cmpSwap_block_char b s hbs v w t ht).1 hm).2
          rw [show w * 2 ^ (b + 1) + 2 ^ b + t = w * 2 ^ (b + 1) + (2 ^ b + t) by omega]
          exact h
        obtain ⟨h1, h2, h3⟩ := halfClean_core v (w * 2 ^ (b + 1)) (2 ^ b) hJpos
          v' v' (w * 2 ^ (b + 1)) (w * 2 ^ (b + 1) + 2 ^ b) hlo hhi hB
        exact ⟨h1, h2, fun _ => h3, fun hm1 => by omega⟩
      · have hlo : ∀ t, t < 2 ^ b → v' (w * 2 ^ (b + 1) + t) =
            max (v (w * 2 ^ (b + 1) + t)) (v (w * 2 ^ (b + 1) + (2 ^ b + t))) := by
          intro t ht
          exact ((cmpSwap_block_char b s hbs v w t ht).2 hm).1
        have hhi : ∀ t, t < 2 ^ b → v' (w * 2 ^ (b + 1) + 2 ^ b + t) =
            min (v (w * 2 ^ (b + 1) + t)) (v (w * 2 ^ (b + 1) + (2 ^ b + t))) := by
          intro t ht
          have h := ((cmpSwap_block_char b s hbs v w t ht).2 hm).2
          rw [show w * 2 ^ (b + 1) + 2 ^ b + t = w * 2 ^ (b + 1) + (2 ^ b + t) by omega]
          exact h
        obtain ⟨h1, h2, h3⟩ := halfClean_core_desc v (w * 2 ^ (b + 1)) (2 ^ b) hJpos
          v' v' (w * 2 ^ (b + 1)) (w * 2 ^ (b + 1) + 2 ^ b) hlo hhi hB
        exact ⟨h1, h2, fun hm0 => by omega, fun _ => h3⟩
    have hBit' : ∀ u : Nat, Bit01On v' (u * 2 ^ b) (2 ^ b) := by
      intro u
      obtain ⟨w, e, he, hu⟩ : ∃ w e, e ≤ 1 ∧ u = 2 * w + e :=
        ⟨u / 2, u % 2, by omega, by omega⟩
      rcases (by omega : e = 0 ∨ e = 1) with rfl | rfl
      · have hs0 : u * 2 ^ b = w * 2 ^ (b + 1) := by
          subst hu
          rw [pow_succ]
          ring
        rw [hs0]
        exact (hclean w).1
      · have hs1 : u * 2 ^ b = w * 2 ^ (b + 1) + 2 ^ b := by
          subst hu
          rw [pow_succ]
          ring
        rw [hs1]
        exact (hclean w).2.1
    have hA4 : ∀ uu : Nat, (uu % 2) * 2 ^ b ≤ 2 ^ b := by
      intro uu
      have h1 : (uu % 2) * 2 ^ b ≤ 1 * 2 ^ b := Nat.mul_le_mul_right _ (by omega)
      simpa using h1
    have hchild : ∀ uu : Nat, ∀ m' : Nat, m' * 2 ^ (s + 1) + uu * 2 ^ b =
        m' * 2 ^ (s + 1) + (uu / 2) * 2 ^ (b + 1) + (uu % 2) * 2 ^ b := by
      intro uu m'
      have hud : uu = 2 * (uu / 2) + uu % 2 := by omega
      calc m' * 2 ^ (s + 1) + uu * 2 ^ b
          = m' * 2 ^ (s + 1) + (2 * (uu / 2) + uu % 2) * 2 ^ b := by rw [← hud]
        _ = m' * 2 ^ (s + 1) + (uu / 2) * 2 ^ (b + 1) + (uu % 2) * 2 ^ b := by
            rw [pow_succ]; ring
    have hglob : ∀ uu m' : Nat, m' * 2 ^ (s + 1) + (uu / 2) * 2 ^ (b + 1) =
        (m' * 2 ^ (s - b) + uu / 2) * 2 ^ (b + 1) := by
      intro uu m'
      rw [← hDk]
      ring
    have hSep' : ∀ m' u1 u2 : Nat, u1 < u2 → u2 * 2 ^ b < 2 ^ (s + 1) →
        ((m' % 2 = 0 → (AllFalseOn v' (m' * 2 ^ (s + 1) + u1 * 2 ^ b) (2 ^ b) ∨
                        AllTrueOn v' (m' * 2 ^ (s + 1) + u2 * 2 ^ b) (2 ^ b))) ∧
         (m' % 2 = 1 → (AllTrueOn v' (m' * 2 ^ (s + 1) + u1 * 2 ^ b) (2 ^ b) ∨
                        AllFalseOn v' (m' * 2 ^ (s + 1) + u2 * 2 ^ b) (2 ^ b)))) := by
      intro m' u1 u2 h12 hu2
      by_cases hsame : u1 / 2 = u2 / 2
      · have hu21 : u2 = u1 + 1 ∧ u1 % 2 = 0 := by omega
        obtain ⟨rfl, heven⟩ := hu21
        obtain ⟨w0, rfl⟩ : ∃ w0, u1 = 2 * w0 := ⟨u1 / 2, by omega⟩
        have hmul : 2 * w0 * 2 ^ b ≤ (2 * w0 + 1) * 2 ^ b :=
          Nat.mul_le_mul_right _ (by omega)
        have hrlt : 2 * w0 * 2 ^ b < 2 ^ (s + 1) := by omega
        have hCW : (m' * 2 ^ (s - b) + w0) * 2 ^ (b + 1) =
            m' * 2 ^ (s + 1) + 2 * w0 * 2 ^ b := by
          rw [← hDk, pow_succ]
          ring
        have hM : ((m' * 2 ^ (s - b) + w0) * 2 ^ (b + 1)) / 2 ^ (s + 1) = m' := by
          rw [hCW]
          exact div_block_eq _ _ _ hkpos hrlt
        have hsecond : (m' * 2 ^ (s - b) + w0) * 2 ^ (b + 1) + 2 ^ b =
            m' * 2 ^ (s + 1) + (2 * w0 + 1) * 2 ^ b := by
          rw [hCW]
          ring
        obtain ⟨hb1, hb2, hsep0, hsep1⟩ := hclean (m' * 2 ^ (s - b) + w0)
        rw [hM] at hsep0 hsep1
        constructor
        · intro hm'
          have hres := hsep0 hm'
          rw [hsecond, hCW] at hres
          exact hres
        · intro hm'
          have hres := hsep1 hm'
          rw [hsecond, hCW] at hres
          exact hres
      · have hw12 : u1 / 2 < u2 / 2 := by omega
        have hmono : (u2 / 2) * 2 ^ (b + 1) ≤ u2 * 2 ^ b := by
          rw [pow_succ]
          have h1 : (u2 / 2) * 2 ≤ u2 := by omega
          calc (u2 / 2) * (2 ^ b * 2) = ((u2 / 2) * 2) * 2 ^ b := by ring
            _ ≤ u2 * 2 ^ b := Nat.mul_le_mul_right _ h1
        have hw2lt : (u2 / 2) * 2 ^ (b + 1) < 2 ^ (s + 1) := by omega
        have hparent := hSep m' (u1 / 2) (u2 / 2) hw12 hw2lt
        have hstep : ∀ uu : Nat,
            (AllFalseOn v (m' * 2 ^ (s + 1) + (uu / 2) * 2 ^ (b + 1)) (2 ^ (b + 1)) →
              AllFalseOn v' (m' * 2 ^ (s + 1) + uu * 2 ^ b) (2 ^ b)) ∧
            (AllTrueOn v (m' * 2 ^ (s + 1) + (uu / 2) * 2 ^ (b + 1)) (2 ^ (b + 1)) →
              AllTrueOn v' (m' * 2 ^ (s + 1) + uu * 2 ^ b) (2 ^ b)) := by
          intro uu
          constructor
          · intro hF
            have hF2 : AllFalseOn v' (m' * 2 ^ (s + 1) + (uu / 2) * 2 ^ (b + 1))
                (2 ^ (b + 1)) := by
              rw [hglob uu m'] at hF ⊢
              exact allFalse_descend b s hbs v _ hF
            apply allFalse_restrict v' _ _ _ _ hF2
            · rw [hchild uu m']
              omega
            · rw [hchild uu m']
              have := hA4 uu
              omega
          · intro hT
            have hT2 : AllTrueOn v' (m' * 2 ^ (s + 1) + (uu / 2) * 2 ^ (b + 1))
                (2 ^ (b + 1)) := by
              rw [hglob uu m'] at hT ⊢
              exact allTrue_descend b s hbs v _ hT
            apply allTrue_restrict v' _ _ _ _ hT2
            · rw [hchild uu m']
              omega
            · rw [hchild uu m']
              have := hA4 uu
              omega
        constructor
        · intro hm'
          rcases hparent.1 hm' with hF | hT
          · exact Or.inl ((hstep u1).1 hF)
          · exact Or.inr ((hstep u2).2 hT)
        · intro hm'
          rcases hparent.2 hm' with hT | hF
          · exact Or.inl ((hstep u1).2 hT)
          · exact Or.inr ((hstep u2).1 hF)
    exact ih (by omega) v' hBit' hSep' m

/-- Stage invariant of the bitonic network: after all stages up to size `K`,
every aligned `K`-block is sorted, ascending for even block index and
descending for odd. -/
def StageInv (K : Nat) (v : Nat → Bool) : Prop :=
  ∀ m : Nat, (m % 2 = 0 → AscOn v (m * K) K) ∧ (m % 2 = 1 → DescOn v (m * K) K)

theorem stage_preserves (s : Nat) (v : Nat → Bool) (h : StageInv (2 ^ s) v) :
    StageInv (2 ^ (s + 1)) (mergeLayers (2 ^ (s + 1)) (s + 1) v) := by
  intro m
  refine mergeLayers_sorts s (s + 1) le_rfl v ?_ ?_ m
  · intro u
    have hasc := (h (2 * u)).1 (by omega)
    have hdesc := (h (2 * u + 1)).2 (by omega)
    have hstart : (2 * u) * 2 ^ s = u * 2 ^ (s + 1) := by rw [pow_succ]; ring
    have hstart2 : (2 * u + 1) * 2 ^ s = u * 2 ^ (s + 1) + 2 ^ s := by rw [pow_succ]; ring
    rw [hstart] at hasc
    rw [hstart2] at hdesc
    have hwin := win_of_asc_desc v (u * 2 ^ (s + 1)) (2 ^ s) hasc hdesc
    rw [two_mul_pow] at hwin
    exact Or.inl hwin
  · intro m' u1 u2 h12 hu2
    exfalso
    have h1 : 1 * 2 ^ (s + 1) ≤ u2 * 2 ^ (s + 1) := Nat.mul_le_mul_right _ (by omega)
    rw [one_mul] at h1
    omega

theorem valNet_stageInv (T : Nat) (v : Nat → Bool) : StageInv (2 ^ T) (valNet (2 ^ T) v) := by
  induction T with
  | zero =>
    intro m
    constructor
    · intro _ t u htu hu
      have ht : t = u := by omega
      subst ht
      exact le_rfl
    · intro _ t u htu hu
      have ht : t = u := by omega
      subst ht
      exact le_rfl
  | succ T ihT =>
    have hfold : valNet (2 ^ (T + 1)) v =
        mergeLayers (2 ^ (T + 1)) (T + 1) (valNet (2 ^ T) v) := by
      rw [valNet, uniformsList_pow_succ, List.foldl_append, ← valNet]
      exact foldl_mergePairs_eq T (valNet (2 ^ T) v)
    rw [hfold]
    exact stage_preserves T (valNet (2 ^ T) v) ihT

/-- The value network sorts every boolean buffer ascending on the range. -/
theorem valNet_sorted_bool (T : Nat) (v : Nat → Bool) :
    ∀ p q, p ≤ q → q < 2 ^ T → valNet (2 ^ T) v p ≤ valNet (2 ^ T) v q := by
  intro p q hpq hq
  have h := (valNet_stageInv T v 0).1 (by norm_num)
  have h2 := h p q hpq (by simpa using hq)
  simpa using h2

/-- The value network sorts every buffer over every linear order. -/
theorem argsort_values_sorted {α : Type} [LinearOrder α] (T : Nat) (keys : Nat → α) :
    ∀ p q, p ≤ q → q < 2 ^ T →
      (argsortBuffers (2 ^ T) keys).values p ≤ (argsortBuffers (2 ^ T) keys).values q := by
  intro p q hpq hq
  rw [argsort_values_eq_valNet T keys p (lt_of_le_of_lt hpq hq),
      argsort_values_eq_valNet T keys q hq]
  exact valNet_sorted_of_bool (2 ^ T) (fun w => valNet_sorted_bool T w) keys p q hpq hq

/-- Through all dispatches, every value cell holds the key addressed by the
matching index cell (the buffers start as the keys and the identity). -/
theorem argsort_tracking {α : Type} [LinearOrder α] (n : Nat) (keys : Nat → α) :
    ∀ p, (argsortBuffers n keys).values p = keys ((argsortBuffers n keys).indices p) := by
  rw [argsortBuffers]
  have main : ∀ (l : List (Nat × Nat)) (s : SortBuffers α),
      (∀ p, s.values p = keys (s.indices p)) →
      ∀ p, ((l.foldl (fun b pr => bitonicDispatch n pr.1 pr.2 b) s).values p =
        keys ((l.foldl (fun b pr => bitonicDispatch n pr.1 pr.2 b) s).indices p)) := by
    intro l
    induction l with
    | nil => intro s h p; exact h p
    | cons pr rest ih =>
      intro s h p
      rw [List.foldl_cons]
      exact ih _ (foldl_range_tracking pr.1 pr.2 n keys s h) p
  exact main _ _ (fun p => rfl)

/-- The returned index buffer is a bijection of the sorted range onto
itself. -/
theorem argsortPerm_bijOn {α : Type} [LinearOrder α] (T : Nat) (keys : Nat → α) :
    Set.BijOn (argsortPerm (2 ^ T) keys) (Set.Iio (2 ^ T)) (Set.Iio (2 ^ T)) := by
  rw [argsortPerm, argsortBuffers]
  have main : ∀ (l : List (Nat × Nat)),
      (∀ pr ∈ l, ∃ b x, b ≤ x ∧ x < T ∧ pr.1 = 2 ^ b ∧ pr.2 = 2 ^ (x + 1)) →
      ∀ s : SortBuffers α, Set.BijOn s.indices (Set.Iio (2 ^ T)) (Set.Iio (2 ^ T)) →
      Set.BijOn ((l.foldl (fun b pr => bitonicDispatch (2 ^ T) pr.1 pr.2 b) s).indices)
        (Set.Iio (2 ^ T)) (Set.Iio (2 ^ T)) := by
    intro l
    induction l with
    | nil => intro _ s hs; exact hs
    | cons pr rest ih =>
      intro hl s hs
      rw [List.foldl_cons]
      obtain ⟨b, x, hbx, hxT, h1, h2⟩ := hl pr (by simp)
      refine ih (fun pr' hpr' => hl pr' (by simp [hpr'])) _ ?_
      rw [h1, h2]
      exact bitonicDispatch_bijOn b (x + 1) T (by omega) (by omega) s hs
  refine main (uniformsList (2 ^ T)) ?_ _ ?_
  · intro pr hpr
    exact uniformsList_mem T pr.1 pr.2 hpr
  · exact ⟨fun p hp => hp, fun p hp q hq h => h, fun q hq => ⟨q, hq, rfl⟩⟩

/-- Claim C1: for every key array whose length equals the sorter's configured
element count `2^T`, permuting the original keys by the index permutation
returned by `argsort` yields a non-decreasing sequence:
`keys (perm r) ≤ keys (perm (r+1))` for every adjacent pair of ranks below
`2^T`. -/
theorem claim1_argsort_sorted {α : Type} [LinearOrder α] (T : Nat) (keys : Nat → α)
    (r : Nat) (hr : r + 1 < 2 ^ T) :
    keys (argsortPerm (2 ^ T) keys r) ≤ keys (argsortPerm (2 ^ T) keys (r + 1)) := by
  have h1 := argsort_tracking (2 ^ T) keys r
  have h2 := argsort_tracking (2 ^ T) keys (r + 1)
  rw [argsortPerm, ← h1, ← h2]
  exact argsort_values_sorted T keys r (r + 1) (by omega) hr

/-- Witness for C1 at a concrete input: four keys `5, 1, 3, 2`. -/
theorem claim1_argsort_sorted_witness :
    0 + 1 < 2 ^ 2 ∧
    (fun i => [5, 1, 3, 2].getD i 0) (argsortPerm (2 ^ 2) (fun i => [5, 1, 3, 2].getD i 0) 0) ≤
      (fun i => [5, 1, 3, 2].getD i 0)
        (argsortPerm (2 ^ 2) (fun i => [5, 1, 3, 2].getD i 0) (0 + 1)) :=
  ⟨by decide, claim1_argsort_sorted 2 (fun i => [5, 1, 3, 2].getD i 0) 0 (by decide)⟩

/-- Claim C2: for every input key buffer of the configured power-of-two size
`2^T`, the index array returned by `argsort` restricted to `[0, 2^T)` is a
bijection onto `[0, 2^T)`: no duplicates, no omissions.  The index buffer
starts as the identity permutation and the exchange network only ever swaps
in-range pairs of entries, which preserves bijectivity at every step. -/
theorem claim2_argsort_bijection {α : Type} [LinearOrder α] (T : Nat) (keys : Nat → α) :
    Set.BijOn (argsortPerm (2 ^ T) keys) (Set.Iio (2 ^ T)) (Set.Iio (2 ^ T)) :=
  argsortPerm_bijOn T keys

/-- With the matching buffer size, `argsort` succeeds, returns the pure
argsort of the keys (computed from a fresh identity index buffer), and does
not touch `initialIndexBuffer`. -/
theorem argsort_run_eq {α : Type} [LinearOrder α] (s : BitonicSorter α) (values : Nat → α)
    (hinit : s.initialIndexBuffer = fun i => i) :
    (s.argsort (s.nElements * 4) values).2 = .ok (argsortPerm s.nElements values) ∧
    (s.argsort (s.nElements * 4) values).1.initialIndexBuffer = s.initialIndexBuffer := by
  unfold BitonicSorter.argsort
  rw [if_neg (by omega)]
  refine ⟨?_, rfl⟩
  show Except.ok (((uniformsList s.nElements).foldl
      (fun b pr => bitonicDispatch s.nElements pr.1 pr.2 b)
      { values := values, indices := s.initialIndexBuffer }).indices) = _
  rw [hinit]
  rfl

/-- Claim C7: `BitonicSorter` construction throws exactly when the element
count is not a power of two; `argsort` throws exactly when the input buffer
byte size differs from `nElements * 4`, and in that case it returns before
encoding any GPU command, leaving the sorter state unchanged. -/
theorem claim7_fatal_config_errors {α : Type} [LinearOrder α] (zero : α) (n : Nat)
    (s : BitonicSorter α) (valuesSize : Nat) (values : Nat → α) :
    ((mkBitonicSorter α zero n).isOk = true ↔ isPowerOfTwo n) ∧
    (((s.argsort valuesSize values).2).isOk = true ↔ valuesSize = s.nElements * 4) ∧
    (valuesSize ≠ s.nElements * 4 → (s.argsort valuesSize values).1 = s) := by
  refine ⟨?_, ?_, ?_⟩
  · unfold mkBitonicSorter
    by_cases h : isPowerOfTwo n
    · rw [if_pos h]
      exact ⟨fun _ => h, fun _ => rfl⟩
    · rw [if_neg h]
      refine ⟨fun hh => ?_, fun hh => absurd hh h⟩
      simp [Except.isOk, Except.toBool] at hh
  · unfold BitonicSorter.argsort
    by_cases h : valuesSize ≠ s.nElements * 4
    · rw [if_pos h]
      refine ⟨fun hh => ?_, fun hh => absurd hh h⟩
      simp [Except.isOk, Except.toBool] at hh
    · rw [if_neg h]
      refine ⟨fun _ => by omega, fun _ => rfl⟩
  · intro h
    unfold BitonicSorter.argsort
    rw [if_pos h]

/-- Witness for C7: size 12 is rejected at construction, size 16 accepted; a
concrete sorter rejects a mismatched buffer size untouched and accepts the
matching one. -/
theorem claim7_fatal_config_errors_witness :
    (((mkBitonicSorter Nat 0 12).isOk = true ↔ isPowerOfTwo 12) ∧
      ((((⟨4, fun _ => 0, fun _ => 0, fun i => i⟩ : BitonicSorter Nat).argsort 13
          (fun _ => 0)).2).isOk = true ↔ 13 = (4 : Nat) * 4) ∧
      ((13 : Nat) ≠ 4 * 4 →
        ((⟨4, fun _ => 0, fun _ => 0, fun i => i⟩ : BitonicSorter Nat).argsort 13
          (fun _ => 0)).1 = ⟨4, fun _ => 0, fun _ => 0, fun i => i⟩)) :=
  claim7_fatal_config_errors 0 12 ⟨4, fun _ => 0, fun _ => 0, fun i => i⟩ 13 (fun _ => 0)

/-- Claim C9: each `argsort` call resets the index buffer to the identity
permutation (copied from the never-written `initialIndexBuffer`) before any
exchange, so its result is the pure function `argsortPerm` of the current
keys alone — two sorters with arbitrary different buffer contents left over
from earlier calls return the same permutation — and the call leaves
`initialIndexBuffer` unchanged. -/
theorem claim9_argsort_reset {α : Type} [LinearOrder α] (s1 s2 : BitonicSorter α)
    (keys : Nat → α) (hn : s1.nElements = s2.nElements)
    (hinit1 : s1.initialIndexBuffer = fun i => i)
    (hinit2 : s2.initialIndexBuffer = fun i => i) :
    (s1.argsort (s1.nElements * 4) keys).2 = .ok (argsortPerm s1.nElements keys) ∧
    (s1.argsort (s1.nElements * 4) keys).2 = (s2.argsort (s2.nElements * 4) keys).2 ∧
    ((s1.argsort (s1.nElements * 4) keys).1).initialIndexBuffer =
      s1.initialIndexBuffer := by
  obtain ⟨h1, h1i⟩ := argsort_run_eq s1 keys hinit1
  obtain ⟨h2, _⟩ := argsort_run_eq s2 keys hinit2
  refine ⟨h1, ?_, h1i⟩
  rw [h1, h2, hn]

/-- Witness for C9 at two concrete sorters with different stale buffer
contents. -/
theorem claim9_argsort_reset_witness :
    ((⟨2, fun _ => 7, fun _ => 5, fun i => i⟩ : BitonicSorter Nat).argsort (2 * 4)
        (fun i => 9 - i)).2 = .ok (argsortPerm 2 (fun i => 9 - i)) ∧
    ((⟨2, fun _ => 7, fun _ => 5, fun i => i⟩ : BitonicSorter Nat).argsort (2 * 4)
        (fun i => 9 - i)).2 =
      ((⟨2, fun _ => 0, fun _ => 0, fun i => i⟩ : BitonicSorter Nat).argsort (2 * 4)
        (fun i => 9 - i)).2 ∧
    (((⟨2, fun _ => 7, fun _ => 5, fun i => i⟩ : BitonicSorter Nat).argsort (2 * 4)
        (fun i => 9 - i)).1).initialIndexBuffer = fun i => i :=
  claim9_argsort_reset ⟨2, fun _ => 7, fun _ => 5, fun i => i⟩
    ⟨2, fun _ => 0, fun _ => 0, fun i => i⟩ (fun i => 9 - i) rfl rfl rfl

/-! ### Depth key pipeline (depth_sorter.ts)

Scalar f32 arithmetic is embedded as exact rational arithmetic.  The matrix
passed to `DepthSorter.sort` is a `number[][]` in column-major order (the
`mat4x4` layout packs `values[c][r]` as column `c`, matching WGSL); `M c r`
below is exactly `projMatrix[c][r]`, so the WGSL product
`projMatrix * vec4(pos, 1.0)` has z component
`M 0 2 * x + M 1 2 * y + M 2 2 * z + M 3 2 * 1`. -/

/-- The z component of `projMatrix * vec4<f32>(pos, 1.0)` as computed by
`computeDepthShader`, with `M` indexed column-first like the source data. -/
def projectedZ (M : Fin 4 → Fin 4 → ℚ) (pos : ℚ × ℚ × ℚ) : ℚ :=
  M 0 2 * pos.1 + M 1 2 * pos.2.1 + M 2 2 * pos.2.2 + M 3 2 * 1

/-- Entry `depths[i]` written by `computeDepthShader`: the sentinel `1e20f`
in the padding region `i ≥ numQuadsUnpadded`, the projected depth below. -/
def computeDepth (numQuadsUnpadded : Nat) (vertices : Nat → ℚ × ℚ × ℚ)
    (M : Fin 4 → Fin 4 → ℚ) (i : Nat) : ℚ :=
  if numQuadsUnpadded ≤ i then 1e20 else projectedZ M (vertices i)

/-- `nextPowerOfTwo(x) = Math.pow(2, Math.ceil(Math.log2(x)))` from
depth_sorter.ts, for the positive sizes it is used with. -/
def nextPowerOfTwo (x : Nat) : Nat := 2 ^ Nat.clog 2 x

/-- Point-order permutation computed by `DepthSorter.sort`: depth pass over
the padded buffer, then `BitonicSorter.argsort` on the depth keys. -/
def depthSorterPerm (nUnpadded : Nat) (vertices : Nat → ℚ × ℚ × ℚ)
    (M : Fin 4 → Fin 4 → ℚ) : Nat → Nat :=
  argsortPerm (nextPowerOfTwo nUnpadded) (computeDepth nUnpadded vertices M)

/-- Claim C4: the depth key buffer holds, for every point index `i < N`, the
z component of `projMatrix × [position i, 1]` (the projected, unnormalized
depth), and the sentinel `1e20` at every padded index; when `N` is a power
of two, `nextPowerOfTwo N = N`, so the padding region is empty. -/
theorem claim4_depth_values (N : Nat) (hN : 0 < N) (vertices : Nat → ℚ × ℚ × ℚ)
    (M : Fin 4 → Fin 4 → ℚ) :
    (∀ i, i < N → computeDepth N vertices M i =
      Matrix.mulVec (Matrix.of fun r c => M c r)
        ![(vertices i).1, (vertices i).2.1, (vertices i).2.2, 1] 2) ∧
    (∀ i, N ≤ i → computeDepth N vertices M i = 1e20) ∧
    (isPowerOfTwo N → nextPowerOfTwo N = N) := by
  refine ⟨?_, ?_, ?_⟩
  · intro i hi
    rw [computeDepth, if_neg (by omega), projectedZ]
    rw [Matrix.mulVec]
    simp [Matrix.dotProduct, Fin.sum_univ_four, Matrix.vecHead, Matrix.vecTail,
      mul_comm]
  · intro i hi
    rw [computeDepth, if_pos hi]
  · rintro ⟨t, rfl⟩
    rw [nextPowerOfTwo, Nat.clog_pow 2 t (by omega)]

/-- Witness for C4 at `N = 4` (a power of two) with concrete data. -/
theorem claim4_depth_values_witness :
    0 < 4 ∧
    ((∀ i, i < 4 → computeDepth 4 (fun _ => (1, 2, 3)) (fun _ _ => 1) i =
        Matrix.mulVec (Matrix.of fun r c => (fun _ _ => (1 : ℚ)) c r) ![1, 2, 3, 1] 2) ∧
     (∀ i, 4 ≤ i → computeDepth 4 (fun _ => (1, 2, 3)) (fun _ _ => 1) i = 1e20) ∧
     (isPowerOfTwo 4 → nextPowerOfTwo 4 = 4)) :=
  ⟨by decide, claim4_depth_values 4 (by decide) (fun _ => (1, 2, 3)) (fun _ _ => 1)⟩

/-- Claim C3: padding safety.  Spec §3 calls `1e20` "a sentinel value larger
than any legitimate depth"; the hypothesis `hdepth` states exactly that for
the actual scene.  Under it, the first `N` slots of the sorted index buffer
hold only indices of real points: sortedness pushes every sentinel-keyed
padded index behind every real one, and a counting argument on the
bijection finishes. -/
theorem claim3_padding_safety (N : Nat) (hN : 0 < N)
    (vertices : Nat → ℚ × ℚ × ℚ) (M : Fin 4 → Fin 4 → ℚ)
    (hdepth : ∀ i, i < N → projectedZ M (vertices i) < 1e20) :
    ∀ r, r < N → depthSorterPerm N vertices M r < N := by
  have hNle : N ≤ 2 ^ Nat.clog 2 N := Nat.le_pow_clog (by omega) N
  intro r hr
  by_contra hcon
  push_neg at hcon
  set T := Nat.clog 2 N with hT
  set keys := computeDepth N vertices M with hkeys
  have hperm : ∀ p, depthSorterPerm N vertices M p =
      (argsortBuffers (2 ^ T) keys).indices p := fun _ => rfl
  rw [hperm] at hcon
  have hbij := argsortPerm_bijOn T keys
  have hpermeq : ∀ p, argsortPerm (2 ^ T) keys p =
      (argsortBuffers (2 ^ T) keys).indices p := fun _ => rfl
  have hkey_pad : ∀ i, N ≤ i → keys i = 1e20 := by
    intro i hi; rw [hkeys, computeDepth, if_pos hi]
  have hkey_real : ∀ i, i < N → keys i < 1e20 := by
    intro i hi; rw [hkeys, computeDepth, if_neg (by omega)]; exact hdepth i hi
  have hmaps : ∀ q ∈ Finset.Ico r (2 ^ T),
      argsortPerm (2 ^ T) keys q ∈ Finset.Ico N (2 ^ T) := by
    intro q hq
    rw [Finset.mem_Ico] at hq
    have hq2 : argsortPerm (2 ^ T) keys q < 2 ^ T :=
      Set.mem_Iio.mp (hbij.mapsTo (Set.mem_Iio.mpr hq.2))
    have hmono := argsort_values_sorted T keys r q hq.1 hq.2
    rw [argsort_tracking, argsort_tracking] at hmono
    have h1 : keys ((argsortBuffers (2 ^ T) keys).indices r) = 1e20 :=
      hkey_pad _ hcon
    rw [Finset.mem_Ico]
    refine ⟨?_, hq2⟩
    by_contra hq3
    push_neg at hq3
    rw [hpermeq] at hq3
    have hlt := hkey_real _ hq3
    rw [h1] at hmono
    exact absurd (lt_of_le_of_lt hmono hlt) (lt_irrefl _)
  have hinj : Set.InjOn (argsortPerm (2 ^ T) keys) ↑(Finset.Ico r (2 ^ T)) := by
    apply hbij.injOn.mono
    intro x hx
    simp only [Finset.coe_Ico, Set.mem_Ico] at hx
    exact Set.mem_Iio.mpr hx.2
  have hcard := Finset.card_le_card_of_injOn _ hmaps hinj
  rw [Nat.card_Ico, Nat.card_Ico] at hcard
  omega

/-- Witness for C3 at `N = 3` (padded to 4) with zero geometry. -/
theorem claim3_padding_safety_witness :
    0 < 3 ∧
    (∀ i, i < 3 → projectedZ (fun _ _ => 0) ((0 : ℚ), (0 : ℚ), (0 : ℚ)) < 1e20) ∧
    (∀ r, r < 3 → depthSorterPerm 3 (fun _ => (0, 0, 0)) (fun _ _ => 0) r < 3) :=
  ⟨by decide, fun _ _ => by norm_num [projectedZ],
    claim3_padding_safety 3 (by decide) (fun _ => (0, 0, 0)) (fun _ _ => 0)
      (fun _ _ => by norm_num [projectedZ])⟩

/-! ### Draw-order expansion (copyToIndexBufferShader)

Each thread iterates `i` over its contiguous range and `break`s at
`i ≥ numQuadsUnpadded`; since every later `i` of that thread is also
`≥ numQuadsUnpadded`, `break` and a per-iteration skip write the same
buffer, so the union of all threads is one fold over `0 ≤ i < C` where
`C` (= numThreads × itemsPerThread) covers at least `N` iterations. -/

/-- Body of one loop iteration of `copyToIndexBufferShader`: nothing past
the unpadded count, otherwise the six writes
`indexBuffer[i*6+vertex] = indices[i]*6+vertex`. -/
def copyStep (numQuadsUnpadded : Nat) (indices : Nat → Nat)
    (out : Nat → Nat) (i : Nat) : Nat → Nat :=
  if numQuadsUnpadded ≤ i then out
  else (List.range 6).foldl
    (fun o vertex => upd o (i * 6 + vertex) (indices i * 6 + vertex)) out

/-- The whole expansion pass, `C` iterations in total. -/
def copyToIndexBuffer (C numQuadsUnpadded : Nat) (indices : Nat → Nat)
    (out0 : Nat → Nat) : Nat → Nat :=
  (List.range C).foldl (copyStep numQuadsUnpadded indices) out0

theorem copyStep_char (N : Nat) (indices : Nat → Nat) (out : Nat → Nat)
    (i p : Nat) :
    copyStep N indices out i p =
      if i < N ∧ p / 6 = i then indices i * 6 + p % 6 else out p := by
  rw [copyStep]
  by_cases hiN : N ≤ i
  · rw [if_pos hiN, if_neg (by omega)]
  · rw [if_neg hiN]
    show (upd (upd (upd (upd (upd (upd out
        (i * 6 + 0) (indices i * 6 + 0)) (i * 6 + 1) (indices i * 6 + 1))
        (i * 6 + 2) (indices i * 6 + 2)) (i * 6 + 3) (indices i * 6 + 3))
        (i * 6 + 4) (indices i * 6 + 4)) (i * 6 + 5) (indices i * 6 + 5)) p = _
    by_cases hp : p / 6 = i
    · have hpe : p = i * 6 + p % 6 := by omega
      have h6 : p % 6 < 6 := Nat.mod_lt _ (by omega)
      rw [if_pos ⟨by omega, hp⟩]
      rcases (by omega : p % 6 = 0 ∨ p % 6 = 1 ∨ p % 6 = 2 ∨ p % 6 = 3 ∨
          p % 6 = 4 ∨ p % 6 = 5) with h | h | h | h | h | h <;>
        rw [h] at hpe ⊢ <;>
        simp [hpe, upd]
    · have hne : ∀ c : Nat, c < 6 → p ≠ i * 6 + c := by
        intro c hc hcon
        exact hp (by omega)
      rw [if_neg (by tauto)]
      rw [upd_other _ _ _ _ (hne 5 (by omega)), upd_other _ _ _ _ (hne 4 (by omega)),
          upd_other _ _ _ _ (hne 3 (by omega)), upd_other _ _ _ _ (hne 2 (by omega)),
          upd_other _ _ _ _ (hne 1 (by omega)), upd_other _ _ _ _ (hne 0 (by omega))]

theorem copy_fold_char (N : Nat) (indices : Nat → Nat) :
    ∀ (m : Nat) (out : Nat → Nat) (p : Nat),
      ((List.range m).foldl (copyStep N indices) out) p =
        if p / 6 < m ∧ p / 6 < N then indices (p / 6) * 6 + p % 6 else out p := by
  intro m
  induction m with
  | zero => intro out p; simp
  | succ m ih =>
    intro out p
    rw [List.range_succ, List.foldl_append, List.foldl_cons, List.foldl_nil,
      copyStep_char]
    by_cases hc : m < N ∧ p / 6 = m
    · rw [if_pos hc, if_pos (by omega), hc.2]
    · rw [if_neg hc, ih out p]
      by_cases hd : p / 6 < m ∧ p / 6 < N
      · rw [if_pos hd, if_pos (by omega)]
      · rw [if_neg hd, if_neg (by omega)]

/-- Claim C5: draw-order expansion.  For any coverage `C ≥ N` of loop
iterations (the dispatch covers numThreads × itemsPerThread ≥ N of them):
every output position `r*6+v` with `r < N`, `v < 6` holds `P r * 6 + v`;
no position at or beyond `6*N` is written; and the output never reads the
permutation at ranks `≥ N`. -/
theorem claim5_draw_order_expansion (C N : Nat) (hC : N ≤ C)
    (P : Nat → Nat) (out0 : Nat → Nat) :
    (∀ r v, r < N → v < 6 →
      copyToIndexBuffer C N P out0 (r * 6 + v) = P r * 6 + v) ∧
    (∀ p, 6 * N ≤ p → copyToIndexBuffer C N P out0 p = out0 p) ∧
    (∀ Q : Nat → Nat, (∀ r, r < N → P r = Q r) →
      copyToIndexBuffer C N P out0 = copyToIndexBuffer C N Q out0) := by
  refine ⟨?_, ?_, ?_⟩
  · intro r v hr hv
    rw [copyToIndexBuffer, copy_fold_char]
    have hdiv : (r * 6 + v) / 6 = r := by omega
    have hmod : (r * 6 + v) % 6 = v := by omega
    rw [if_pos (by omega), hdiv, hmod]
  · intro p hp
    rw [copyToIndexBuffer, copy_fold_char]
    rw [if_neg (by omega)]
  · intro Q hPQ
    funext p
    rw [copyToIndexBuffer, copyToIndexBuffer, copy_fold_char, copy_fold_char]
    by_cases hd : p / 6 < C ∧ p / 6 < N
    · rw [if_pos hd, if_pos hd, hPQ _ hd.2]
    · rw [if_neg hd, if_neg hd]

/-- Witness for C5 at `C = 5`, `N = 3`, the reversal permutation, and a
garbage-valued initial buffer. -/
theorem claim5_draw_order_expansion_witness :
    3 ≤ 5 ∧
    ((∀ r v, r < 3 → v < 6 →
        copyToIndexBuffer 5 3 (fun r => 2 - r) (fun _ => 99) (r * 6 + v) =
          (2 - r) * 6 + v) ∧
     (∀ p, 6 * 3 ≤ p →
        copyToIndexBuffer 5 3 (fun r => 2 - r) (fun _ => 99) p = 99) ∧
     (∀ Q : Nat → Nat, (∀ r, r < 3 → 2 - r = Q r) →
        copyToIndexBuffer 5 3 (fun r => 2 - r) (fun _ => 99) =
          copyToIndexBuffer 5 3 Q (fun _ => 99))) :=
  ⟨by decide, claim5_draw_order_expansion 5 3 (by decide) (fun r => 2 - r)
    (fun _ => 99)⟩

/-! ### Alpha compositing (renderer.ts blend state, index.ts fragment shader)

One color channel suffices; f32 arithmetic is embedded exactly over ℚ. -/

/-- The fragment shader's output `vec4(input.color * alpha, alpha)`,
restricted to one color channel. -/
def fragOutput (color alpha : ℚ) : ℚ × ℚ := (color * alpha, alpha)

/-- One blend step with the renderer's configuration: for color and alpha,
`srcFactor = one-minus-dst-alpha`, `dstFactor = one`, `operation = add`,
so `out = src * (1 - dst.alpha) + dst * 1`. -/
def blendUnder (src dst : ℚ × ℚ) : ℚ × ℚ :=
  (src.1 * (1 - dst.2) + dst.1 * 1, src.2 * (1 - dst.2) + dst.2 * 1)

/-- Claim C6 counterexample: drawing the back fragment first (as the claim
says) does not give the claimed color.  With `C1 = 1, a1 = 1/2` drawn
first and `C2 = 0, a2 = 4/5` drawn second onto a cleared target, the blend
produces color `1/2`, while the claim predicts `C2*a2 + C1*a1*(1-a2) = 1/10`. -/
theorem claim6_compositing_counterexample :
    (blendUnder (fragOutput 0 (4 / 5)) (blendUnder (fragOutput 1 (1 / 2)) (0, 0))).1 ≠
      0 * (4 / 5) + 1 * (1 / 2) * (1 - 4 / 5) := by
  norm_num [blendUnder, fragOutput]

/-- Claim C6, amended: the configured blend is the front-to-back "under"
operator, and the renderer draws in ascending depth (front first).  With
the front fragment `(C2, a2)` drawn first and the back fragment `(C1, a1)`
drawn second onto a cleared target, the final color is
`C2*a2 + C1*a1*(1-a2)` and the final alpha is `a2 + a1*(1-a2)` — the
formulas the claim states, under the opposite draw order. -/
theorem claim6_compositing_corrected (c1 c2 a1 a2 : ℚ) :
    blendUnder (fragOutput c1 a1) (blendUnder (fragOutput c2 a2) (0, 0)) =
      (c2 * a2 + c1 * a1 * (1 - a2), a2 + a1 * (1 - a2)) := by
  simp only [blendUnder, fragOutput, Prod.mk.injEq]
  constructor <;> ring

/-! ### Spherical-harmonics degree inference (PackedGaussians constructor)

`nRestCoeffs` counts header properties starting with `f_rest_`;
`sphericalHarmonicsDegree = Math.sqrt(nRestCoeffs / 3 + 1) - 1` is modelled
relationally over exact arithmetic: `d` is the computed degree iff `d + 1`
is the non-negative square root of `nRestCoeffs / 3 + 1`. -/

/-- The count of `f_rest_`-prefixed property names in the header. -/
def countRestFields (props : List String) : Nat :=
  (props.filter (fun s => s.startsWith ("f_rest_"))).length

/-- The relation `d = Math.sqrt(nRestCoeffs / 3 + 1) - 1` in exact
arithmetic: `d + 1` is non-negative and squares to `nRestCoeffs / 3 + 1`. -/
def degreeEq (nRestCoeffs : Nat) (d : ℚ) : Prop :=
  0 ≤ d + 1 ∧ (nRestCoeffs : ℚ) / 3 + 1 = (d + 1) ^ 2

/-- The `nShCoeffs` getter: strict-equality chain on the stored degree,
throwing on any other value. -/
def nShCoeffs (degree : ℚ) : Except String Nat :=
  if degree = 0 then .ok 1
  else if degree = 1 then .ok 4
  else if degree = 2 then .ok 9
  else if degree = 3 then .ok 16
  else .error ("Unsupported SH degree")

/-- Claim C8: 45 rest fields give degree 3 (and 16 coefficients), 0 rest
fields give degree 0 (and 1 coefficient); for every supported degree
`k ∈ {0,1,2,3}` the coefficient count is `(k+1)^2`; and every degree
outside `{0,1,2,3}` makes the `nShCoeffs` getter throw. -/
theorem claim8_sh_degree (props : List String) (d : ℚ)
    (hd : degreeEq (countRestFields props) d) :
    (countRestFields props = 45 → d = 3 ∧ nShCoeffs d = .ok 16) ∧
    (countRestFields props = 0 → d = 0 ∧ nShCoeffs d = .ok 1) ∧
    (∀ k : Nat, k ≤ 3 → d = k → nShCoeffs d = .ok ((k + 1) ^ 2)) ∧
    (d ≠ 0 → d ≠ 1 → d ≠ 2 → d ≠ 3 → ∃ e, nShCoeffs d = .error e) := by
  obtain ⟨hpos, hsq⟩ := hd
  refine ⟨?_, ?_, ?_, ?_⟩
  · intro h45
    rw [h45] at hsq
    have hz : (d - 3) * (d + 5) = 0 := by push_cast at hsq; nlinarith
    rcases mul_eq_zero.mp hz with h | h
    · have hd3 : d = 3 := by linarith
      subst hd3
      exact ⟨rfl, by norm_num [nShCoeffs]⟩
    · exfalso; linarith
  · intro h0
    rw [h0] at hsq
    have hz : d * (d + 2) = 0 := by push_cast at hsq; nlinarith
    rcases mul_eq_zero.mp hz with h | h
    · subst h
      exact ⟨rfl, by norm_num [nShCoeffs]⟩
    · exfalso; linarith
  · intro k hk hdk
    interval_cases k <;> subst hdk <;> norm_num [nShCoeffs]
  · intro h0 h1 h2 h3
    rw [nShCoeffs, if_neg h0, if_neg h1, if_neg h2, if_neg h3]
    exact ⟨_, rfl⟩

/-- Witness for C8 with an empty property list (degree 0). -/
theorem claim8_sh_degree_witness :
    degreeEq (countRestFields []) 0 ∧
    ((countRestFields [] = 45 → (0 : ℚ) = 3 ∧ nShCoeffs 0 = .ok 16) ∧
     (countRestFields [] = 0 → (0 : ℚ) = 0 ∧ nShCoeffs 0 = .ok 1) ∧
     (∀ k : Nat, k ≤ 3 → (0 : ℚ) = k → nShCoeffs 0 = .ok ((k + 1) ^ 2)) ∧
     ((0 : ℚ) ≠ 0 → (0 : ℚ) ≠ 1 → (0 : ℚ) ≠ 2 → (0 : ℚ) ≠ 3 →
       ∃ e, nShCoeffs 0 = .error e)) :=
  ⟨by norm_num [degreeEq, countRestFields],
    claim8_sh_degree [] 0 (by norm_num [degreeEq, countRestFields])⟩

/-! ### Vectorized bitonic exchange shader (the second BitonicSorter)

The vectorized shader operates on `array<vec4f>` / `array<vec4<u32>>`
views of the same flat buffers: block `m` holds scalars `4*m .. 4*m+3`.
Threads are composed sequentially here; the stage-equivalence question is
settled below on a configuration where every thread leaves the buffers
untouched, so any interleaving of the threads agrees with this model. -/

/-- Read block `m` of a flat buffer as a `vec4`. -/
def loadVec {α : Type} (data : Nat → α) (m : Nat) : Nat → α :=
  fun l => data (4 * m + l)

/-- Write a `vec4` back over block `m` of a flat buffer. -/
def storeVec {α : Type} (data : Nat → α) (m : Nat) (v : Nat → α) : Nat → α :=
  fun p => if p / 4 = m then v (p % 4) else data p

/-- The `var` state of one outer-loop iteration of the vectorized shader:
the cached `vec4`s `datan`/`indicesn` of the thread's own block, the
cached partner block `dataixj`/`indicesixj`, the `swap` flag, and
`lastIxjLoadedMajorIdx`. -/
structure VecIter (α : Type) where
  datan : Nat → α
  indicesn : Nat → Nat
  swap : Bool
  dataixj : Nat → α
  indicesixj : Nat → Nat
  lastIxjLoadedMajorIdx : Nat

/-- One iteration of the inner `for (var l = 0; l < 4; l++)` loop of the
vectorized shader: `continue` when `ixj <= i`; otherwise refresh the
cached partner block (spilling the previous one if it was loaded from
elsewhere), then the guarded lockstep exchange, mirrored into `datan`
when the partner lives in the thread's own block. -/
def vecInnerBody {α : Type} [LinearOrder α] (j k n : Nat)
    (s : SortBuffers α × VecIter α) (l : Nat) : SortBuffers α × VecIter α :=
  let buf := s.1
  let st := s.2
  let i := n + l
  let datai := st.datan l
  let indicesi := st.indicesn l
  let ixj := i ^^^ j
  if ixj ≤ i then s
  else
    let ixjMajor := ixj / 4
    let ixjMinor := ixj % 4
    let writeToWorkgroupBlock := ixjMajor = n / 4
    let bs1 : SortBuffers α × VecIter α :=
      if writeToWorkgroupBlock then
        (buf, { st with
                dataixj := st.datan
                indicesixj := st.indicesn
                lastIxjLoadedMajorIdx := 0 })
      else if st.lastIxjLoadedMajorIdx ≠ ixjMajor then
        let spilled : SortBuffers α :=
          if st.lastIxjLoadedMajorIdx ≠ 0 then
            { values := storeVec buf.values st.lastIxjLoadedMajorIdx st.dataixj,
              indices := storeVec buf.indices st.lastIxjLoadedMajorIdx st.indicesixj }
          else buf
        (spilled, { st with
                    dataixj := loadVec spilled.values ixjMajor
                    indicesixj := loadVec spilled.indices ixjMajor
                    lastIxjLoadedMajorIdx := ixjMajor })
      else (buf, st)
    let st1 := bs1.2
    let swap_pos := i &&& k = 0 ∧ datai > st1.dataixj ixjMinor
    let swap_neg := i &&& k ≠ 0 ∧ datai < st1.dataixj ixjMinor
    if swap_pos ∨ swap_neg then
      let st2 : VecIter α :=
        { st1 with
          swap := true
          datan := upd st1.datan l (st1.dataixj ixjMinor)
          dataixj := upd st1.dataixj ixjMinor datai
          indicesn := upd st1.indicesn l (st1.indicesixj ixjMinor)
          indicesixj := upd st1.indicesixj ixjMinor indicesi }
      let st3 :=
        if writeToWorkgroupBlock then
          { st2 with
            datan := upd st2.datan ixjMinor datai
            indicesn := upd st2.indicesn ixjMinor indicesi }
        else st2
      (bs1.1, st3)
    else bs1

/-- One iteration of the outer `for (var n = ...)` loop: load the thread's
own block, run the four inner iterations, then the conditional
write-backs of the own block (`if (swap)`) and of the cached partner
block (`if (lastIxjLoadedMajorIdx != 0)`).  `zero` is the `vec4f(0,...)`
initializer of the caches. -/
def vecIterBody {α : Type} [LinearOrder α] (j k : Nat) (zero : α)
    (buf : SortBuffers α) (n : Nat) : SortBuffers α :=
  let st0 : VecIter α :=
    { datan := loadVec buf.values (n / 4),
      indicesn := loadVec buf.indices (n / 4),
      swap := false,
      dataixj := fun _ => zero,
      indicesixj := fun _ => 0,
      lastIxjLoadedMajorIdx := 0 }
  let res := (List.range 4).foldl (vecInnerBody j k n) (buf, st0)
  let buf2 :=
    if res.2.swap then
      { values := storeVec res.1.values (n / 4) res.2.datan,
        indices := storeVec res.1.indices (n / 4) res.2.indicesn }
    else res.1
  if res.2.lastIxjLoadedMajorIdx ≠ 0 then
    { values := storeVec buf2.values res.2.lastIxjLoadedMajorIdx res.2.dataixj,
      indices := storeVec buf2.indices res.2.lastIxjLoadedMajorIdx res.2.indicesixj }
  else buf2

/-- One thread `g` of the vectorized shader.  `mx = (g+1)*itemsPerThread`
and both conjuncts of the loop guard `n < mx && (mx ^ j) > mx` are
invariant across iterations, so the loop runs either zero iterations or
all `n = g*itemsPerThread + 4*t` with `4*t < itemsPerThread`. -/
def vecThread {α : Type} [LinearOrder α] (itemsPerThread j k : Nat) (zero : α)
    (g : Nat) (buf : SortBuffers α) : SortBuffers α :=
  let mx := (g + 1) * itemsPerThread
  if mx ^^^ j > mx then
    ((List.range ((itemsPerThread + 3) / 4)).map
        (fun t => g * itemsPerThread + 4 * t)).foldl (vecIterBody j k zero) buf
  else buf

/-- One full dispatch of the vectorized shader: 8192 threads,
`itemsPerThread = Math.ceil(nElements / 8192)`. -/
def vecDispatch {α : Type} [LinearOrder α] (nElements j k : Nat) (zero : α)
    (buf : SortBuffers α) : SortBuffers α :=
  (List.range 8192).foldl
    (fun b g => vecThread ((nElements + 8191) / 8192) j k zero g b) buf

theorem vecInnerBody_continue {α : Type} [LinearOrder α] (j k n : Nat)
    (s : SortBuffers α × VecIter α) (l : Nat) (h : (n + l) ^^^ j ≤ n + l) :
    vecInnerBody j k n s l = s := by
  rw [vecInnerBody]
  exact if_pos h

theorem vecIterBody_id {α : Type} [LinearOrder α] (j k : Nat) (zero : α)
    (buf : SortBuffers α) (n : Nat)
    (h : ∀ l, l < 4 → (n + l) ^^^ j ≤ n + l) :
    vecIterBody j k zero buf n = buf := by
  rw [vecIterBody]
  have h4 : List.range 4 = [0, 1, 2, 3] := rfl
  rw [h4, List.foldl_cons, vecInnerBody_continue j k n _ 0 (h 0 (by omega)),
      List.foldl_cons, vecInnerBody_continue j k n _ 1 (h 1 (by omega)),
      List.foldl_cons, vecInnerBody_continue j k n _ 2 (h 2 (by omega)),
      List.foldl_cons, vecInnerBody_continue j k n _ 3 (h 3 (by omega)),
      List.foldl_nil]
  dsimp only
  rw [if_neg (by omega), if_neg Bool.false_ne_true]

theorem vecThread_id_stage4 {α : Type} [LinearOrder α] (zero : α) (g : Nat)
    (buf : SortBuffers α) : vecThread 4 4 8 zero g buf = buf := by
  rw [vecThread]
  by_cases hg : g % 2 = 0
  · have h1 : ¬ ((g + 1) * 4) % 2 ^ 3 < 2 ^ 2 := by norm_num; omega
    have h2 := xor_pow_of_high 2 ((g + 1) * 4) h1
    rw [show (2 : Nat) ^ 2 = 4 from rfl] at h2
    rw [if_neg (by omega)]
  · by_cases hguard : (g + 1) * 4 ^^^ 4 > (g + 1) * 4
    · rw [if_pos hguard]
      have key : ∀ l, l < 4 → (g * 4 + l) ^^^ 4 ≤ g * 4 + l := by
        intro l hl
        have h1 : ¬ (g * 4 + l) % 2 ^ 3 < 2 ^ 2 := by norm_num; omega
        have h2 := xor_pow_of_high 2 (g * 4 + l) h1
        rw [show (2 : Nat) ^ 2 = 4 from rfl] at h2
        omega
      have hlist : (List.range ((4 + 3) / 4)).map (fun t => g * 4 + 4 * t) =
          [g * 4] := rfl
      rw [hlist, List.foldl_cons, List.foldl_nil,
        vecIterBody_id 4 8 zero buf (g * 4) key]
    · rw [if_neg hguard]

theorem vecDispatch_id_stage4 {α : Type} [LinearOrder α] (zero : α)
    (buf : SortBuffers α) : vecDispatch 32768 4 8 zero buf = buf := by
  rw [vecDispatch]
  have hipt : (32768 + 8191) / 8192 = 4 := by norm_num
  rw [hipt]
  have main : ∀ (l : List Nat) (b : SortBuffers α),
      l.foldl (fun b g => vecThread 4 4 8 zero g b) b = b := by
    intro l
    induction l with
    | nil => intro b; rfl
    | cons x xs ih =>
      intro b
      rw [List.foldl_cons, vecThread_id_stage4]
      exact ih b
  exact main _ buf

/-- Claim C10 is refuted: at `nElements = 32768` (`itemsPerThread = 4`) and
stage `(j, k) = (4, 8)`, the vectorized shader's loop guard
`(max ^ j) > max` is false for every even-indexed thread, and every element
of an odd-indexed thread hits the `ixj <= i` continue, so the dispatch
leaves the buffers untouched — while the scalar shader swaps the
out-of-order pair at positions 0 and 4. -/
theorem claim10_vectorized_stage_divergence :
    (vecDispatch 32768 4 8 (0 : ℤ)
        { values := fun i => if i = 0 then 1 else 0,
          indices := fun i => i }).values 0 = 1 ∧
    (bitonicDispatch 32768 4 8
        { values := fun i => if i = 0 then (1 : ℤ) else 0,
          indices := fun i => i }).values 0 = 0 := by
  constructor
  · rw [vecDispatch_id_stage4]
    norm_num
  · have h := bitonicDispatch_values 2 3 15 (by omega) (by omega)
      { values := fun i => if i = 0 then (1 : ℤ) else 0, indices := fun i => i } 0
    norm_num [cmpSwap] at h
    exact h
